import Mathlib

/-
Verification development for the struqture operator-algebra core.

The shipped repository surface consists of the Python binding tests; the
operator-algebra core itself (product types, sparse containers, the
Jordan-Wigner transform) is not part of the shipped sources, so every
definition below is modelled from the specification document, faithful to
its wording (§3 data model, §4 component design, §6 interfaces, §7 errors).

Coefficients are exact Gaussian rationals (the spec demands exact symbolic
complex values).  Sparse operators are association lists sorted strictly by
a fixed total key order with zero coefficients pruned, so that structural
equality coincides with content equality, as the spec requires.
-/

namespace Struqture

/-- Modelled from the spec: exact complex coefficients ("values exact, no
implicit truncation", §3).  All coefficients this core ever produces are
dyadic Gaussian rationals, represented as `(re + i·im) / 2^den` over exact
integers, kept in lowest terms (the invariant `reduced`), so that structural
equality is value equality and every concrete computation is decidable. -/
structure CComplex where
  re : ℤ
  im : ℤ
  den : ℕ
  reduced : den = 0 ∨ re % 2 ≠ 0 ∨ im % 2 ≠ 0

instance instDecEqC : DecidableEq CComplex := fun a b =>
  decidable_of_iff (a.re = b.re ∧ a.im = b.im ∧ a.den = b.den) (by
    obtain ⟨ar, ai, ad, ap⟩ := a
    obtain ⟨br, bi, bd, bp⟩ := b
    simp)

/-- Normalization of a dyadic pair: halve both numerators while both are
even and the denominator exponent is positive. -/
def reduceDy : ℤ → ℤ → ℕ → CComplex
  | r, i, 0 => ⟨r, i, 0, Or.inl rfl⟩
  | r, i, d + 1 =>
    if h : r % 2 = 0 ∧ i % 2 = 0 then reduceDy (r / 2) (i / 2) d
    else ⟨r, i, d + 1, Or.inr (not_and_or.mp h)⟩

/-- The coefficient `(r + i·i0) / 2^d`, in normal form. -/
def dy (r i0 : ℤ) (d : ℕ) : CComplex := reduceDy r i0 d

/-- Addition of exact complex coefficients. -/
def CComplex.add (a b : CComplex) : CComplex :=
  dy (a.re * 2 ^ b.den + b.re * 2 ^ a.den) (a.im * 2 ^ b.den + b.im * 2 ^ a.den)
    (a.den + b.den)

/-- Negation of exact complex coefficients. -/
def CComplex.neg (a : CComplex) : CComplex :=
  ⟨-a.re, -a.im, a.den, by
    rcases a.reduced with h | h | h
    · exact Or.inl h
    · exact Or.inr (Or.inl (by omega))
    · exact Or.inr (Or.inr (by omega))⟩

/-- Multiplication of exact complex coefficients. -/
def CComplex.mul (a b : CComplex) : CComplex :=
  dy (a.re * b.re - a.im * b.im) (a.re * b.im + a.im * b.re) (a.den + b.den)

/-- Complex conjugation on exact coefficients. -/
def CComplex.conj (a : CComplex) : CComplex :=
  ⟨a.re, -a.im, a.den, by
    rcases a.reduced with h | h | h
    · exact Or.inl h
    · exact Or.inr (Or.inl h)
    · exact Or.inr (Or.inr (by omega))⟩

/-- The imaginary unit. -/
def CComplex.I : CComplex := ⟨0, 1, 0, Or.inl rfl⟩

/-- Embedding of integers (used for anticommutation signs). -/
def CComplex.ofInt (n : ℤ) : CComplex := ⟨n, 0, 0, Or.inl rfl⟩

/-- The exact rational value of the real part. -/
def CComplex.reQ (a : CComplex) : ℚ := (a.re : ℚ) / 2 ^ a.den

/-- The exact rational value of the imaginary part. -/
def CComplex.imQ (a : CComplex) : ℚ := (a.im : ℚ) / 2 ^ a.den

instance instZeroC : Zero CComplex := ⟨⟨0, 0, 0, Or.inl rfl⟩⟩
instance instOneC : One CComplex := ⟨⟨1, 0, 0, Or.inl rfl⟩⟩
instance instAddC : Add CComplex := ⟨CComplex.add⟩
instance instNegC : Neg CComplex := ⟨CComplex.neg⟩
instance instMulC : Mul CComplex := ⟨CComplex.mul⟩

theorem reduceDy_reQ : ∀ (d : ℕ) (r i : ℤ),
    (reduceDy r i d).reQ = (r : ℚ) / 2 ^ d ∧ (reduceDy r i d).imQ = (i : ℚ) / 2 ^ d
  | 0, r, i => ⟨rfl, rfl⟩
  | d + 1, r, i => by
    rw [reduceDy]
    by_cases h : r % 2 = 0 ∧ i % 2 = 0
    · rw [dif_pos h]
      have h2r : 2 * (r / 2) = r := by
        have := Int.ediv_add_emod r 2
        omega
      have h2i : 2 * (i / 2) = i := by
        have := Int.ediv_add_emod i 2
        omega
      obtain ⟨hre, him⟩ := reduceDy_reQ d (r / 2) (i / 2)
      constructor
      · rw [hre, show ((r : ℚ)) = 2 * ((r / 2 : ℤ) : ℚ) from by exact_mod_cast h2r.symm,
          pow_succ]
        rw [mul_comm ((2 : ℚ) ^ d) 2, mul_div_mul_left]
        norm_num
      · rw [him, show ((i : ℚ)) = 2 * ((i / 2 : ℤ) : ℚ) from by exact_mod_cast h2i.symm,
          pow_succ]
        rw [mul_comm ((2 : ℚ) ^ d) 2, mul_div_mul_left]
        norm_num
    · rw [dif_neg h]
      exact ⟨rfl, rfl⟩

theorem dy_reQ (r i : ℤ) (d : ℕ) : (dy r i d).reQ = (r : ℚ) / 2 ^ d :=
  (reduceDy_reQ d r i).1

theorem dy_imQ (r i : ℤ) (d : ℕ) : (dy r i d).imQ = (i : ℚ) / 2 ^ d :=
  (reduceDy_reQ d r i).2

theorem reduced_ext_le {a b : CComplex} (hd : a.den ≤ b.den)
    (hre : a.reQ = b.reQ) (him : a.imQ = b.imQ) : a = b := by
  obtain ⟨ra, ia, da, pa⟩ := a
  obtain ⟨rb, ib, db, pb⟩ := b
  simp only [CComplex.reQ, CComplex.imQ] at hre him
  simp only at hd
  rw [div_eq_div_iff (by positivity) (by positivity)] at hre him
  obtain ⟨k, rfl⟩ : ∃ k, db = da + k := ⟨db - da, by omega⟩
  have hra : ra * 2 ^ k = rb := by
    have h' : ra * 2 ^ k * 2 ^ da = rb * 2 ^ da := by
      have : (ra : ℚ) * 2 ^ k * 2 ^ da = (rb : ℚ) * 2 ^ da := by
        rw [← hre, pow_add]
        ring
      exact_mod_cast this
    exact mul_right_cancel₀ (pow_ne_zero da two_ne_zero) h'
  have hia : ia * 2 ^ k = ib := by
    have h' : ia * 2 ^ k * 2 ^ da = ib * 2 ^ da := by
      have : (ia : ℚ) * 2 ^ k * 2 ^ da = (ib : ℚ) * 2 ^ da := by
        rw [← him, pow_add]
        ring
      exact_mod_cast this
    exact mul_right_cancel₀ (pow_ne_zero da two_ne_zero) h'
  cases k with
  | zero =>
    simp only [pow_zero, mul_one] at hra hia
    simp [hra, hia]
  | succ k' =>
    exfalso
    have hrb : rb % 2 = 0 := by
      rw [← hra, pow_succ, ← mul_assoc]
      exact Int.mul_emod_left _ _
    have hib : ib % 2 = 0 := by
      rw [← hia, pow_succ, ← mul_assoc]
      exact Int.mul_emod_left _ _
    rcases pb with h0 | hodd | hodd
    · omega
    · exact hodd hrb
    · exact hodd hib

theorem reduced_ext {a b : CComplex} (hre : a.reQ = b.reQ) (him : a.imQ = b.imQ) :
    a = b := by
  rcases Nat.le_total a.den b.den with h | h
  · exact reduced_ext_le h hre him
  · exact (reduced_ext_le h hre.symm him.symm).symm

theorem add_reQ (a b : CComplex) : (CComplex.add a b).reQ = a.reQ + b.reQ := by
  unfold CComplex.add
  rw [dy_reQ]
  unfold CComplex.reQ
  push_cast
  rw [pow_add]
  field_simp

theorem add_imQ (a b : CComplex) : (CComplex.add a b).imQ = a.imQ + b.imQ := by
  unfold CComplex.add
  rw [dy_imQ]
  unfold CComplex.imQ
  push_cast
  rw [pow_add]
  field_simp

theorem mul_reQ (a b : CComplex) :
    (CComplex.mul a b).reQ = a.reQ * b.reQ - a.imQ * b.imQ := by
  unfold CComplex.mul
  rw [dy_reQ]
  unfold CComplex.reQ CComplex.imQ
  push_cast
  rw [pow_add]
  field_simp

theorem mul_imQ (a b : CComplex) :
    (CComplex.mul a b).imQ = a.reQ * b.imQ + a.imQ * b.reQ := by
  unfold CComplex.mul
  rw [dy_imQ]
  unfold CComplex.reQ CComplex.imQ
  push_cast
  rw [pow_add]
  field_simp

theorem neg_reQ (a : CComplex) : (CComplex.neg a).reQ = -(a.reQ) := by
  unfold CComplex.neg CComplex.reQ
  push_cast
  rw [neg_div]

theorem neg_imQ (a : CComplex) : (CComplex.neg a).imQ = -(a.imQ) := by
  unfold CComplex.neg CComplex.imQ
  push_cast
  rw [neg_div]

theorem zero_reQ : (0 : CComplex).reQ = 0 := by
  show CComplex.reQ ⟨0, 0, 0, Or.inl rfl⟩ = 0
  unfold CComplex.reQ
  norm_num

theorem zero_imQ : (0 : CComplex).imQ = 0 := by
  show CComplex.imQ ⟨0, 0, 0, Or.inl rfl⟩ = 0
  unfold CComplex.imQ
  norm_num

theorem one_reQ : (1 : CComplex).reQ = 1 := by
  show CComplex.reQ ⟨1, 0, 0, Or.inl rfl⟩ = 1
  unfold CComplex.reQ
  norm_num

theorem one_imQ : (1 : CComplex).imQ = 0 := by
  show CComplex.imQ ⟨1, 0, 0, Or.inl rfl⟩ = 0
  unfold CComplex.imQ
  norm_num

instance : CommRing CComplex where
  add_assoc a b c := by
    show CComplex.add (CComplex.add a b) c = CComplex.add a (CComplex.add b c)
    refine reduced_ext ?_ ?_ <;> (simp only [add_reQ, add_imQ, mul_reQ, mul_imQ, neg_reQ, neg_imQ, zero_reQ, zero_imQ, one_reQ, one_imQ]; ring)
  zero_add a := by
    show CComplex.add 0 a = a
    refine reduced_ext ?_ ?_ <;> (simp only [add_reQ, add_imQ, mul_reQ, mul_imQ, neg_reQ, neg_imQ, zero_reQ, zero_imQ, one_reQ, one_imQ]; ring)
  add_zero a := by
    show CComplex.add a 0 = a
    refine reduced_ext ?_ ?_ <;> (simp only [add_reQ, add_imQ, mul_reQ, mul_imQ, neg_reQ, neg_imQ, zero_reQ, zero_imQ, one_reQ, one_imQ]; ring)
  add_comm a b := by
    show CComplex.add a b = CComplex.add b a
    refine reduced_ext ?_ ?_ <;> (simp only [add_reQ, add_imQ, mul_reQ, mul_imQ, neg_reQ, neg_imQ, zero_reQ, zero_imQ, one_reQ, one_imQ]; ring)
  left_distrib a b c := by
    show CComplex.mul a (CComplex.add b c)
        = CComplex.add (CComplex.mul a b) (CComplex.mul a c)
    refine reduced_ext ?_ ?_ <;> (simp only [add_reQ, add_imQ, mul_reQ, mul_imQ, neg_reQ, neg_imQ, zero_reQ, zero_imQ, one_reQ, one_imQ]; ring)
  right_distrib a b c := by
    show CComplex.mul (CComplex.add a b) c
        = CComplex.add (CComplex.mul a c) (CComplex.mul b c)
    refine reduced_ext ?_ ?_ <;> (simp only [add_reQ, add_imQ, mul_reQ, mul_imQ, neg_reQ, neg_imQ, zero_reQ, zero_imQ, one_reQ, one_imQ]; ring)
  zero_mul a := by
    show CComplex.mul 0 a = 0
    refine reduced_ext ?_ ?_ <;> (simp only [add_reQ, add_imQ, mul_reQ, mul_imQ, neg_reQ, neg_imQ, zero_reQ, zero_imQ, one_reQ, one_imQ]; ring)
  mul_zero a := by
    show CComplex.mul a 0 = 0
    refine reduced_ext ?_ ?_ <;> (simp only [add_reQ, add_imQ, mul_reQ, mul_imQ, neg_reQ, neg_imQ, zero_reQ, zero_imQ, one_reQ, one_imQ]; ring)
  mul_assoc a b c := by
    show CComplex.mul (CComplex.mul a b) c = CComplex.mul a (CComplex.mul b c)
    refine reduced_ext ?_ ?_ <;> (simp only [add_reQ, add_imQ, mul_reQ, mul_imQ, neg_reQ, neg_imQ, zero_reQ, zero_imQ, one_reQ, one_imQ]; ring)
  one_mul a := by
    show CComplex.mul 1 a = a
    refine reduced_ext ?_ ?_ <;> (simp only [add_reQ, add_imQ, mul_reQ, mul_imQ, neg_reQ, neg_imQ, zero_reQ, zero_imQ, one_reQ, one_imQ]; ring)
  mul_one a := by
    show CComplex.mul a 1 = a
    refine reduced_ext ?_ ?_ <;> (simp only [add_reQ, add_imQ, mul_reQ, mul_imQ, neg_reQ, neg_imQ, zero_reQ, zero_imQ, one_reQ, one_imQ]; ring)
  neg_add_cancel a := by
    show CComplex.add (CComplex.neg a) a = 0
    refine reduced_ext ?_ ?_ <;> (simp only [add_reQ, add_imQ, mul_reQ, mul_imQ, neg_reQ, neg_imQ, zero_reQ, zero_imQ, one_reQ, one_imQ]; ring)
  mul_comm a b := by
    show CComplex.mul a b = CComplex.mul b a
    refine reduced_ext ?_ ?_ <;> (simp only [add_reQ, add_imQ, mul_reQ, mul_imQ, neg_reQ, neg_imQ, zero_reQ, zero_imQ, one_reQ, one_imQ]; ring)
  nsmul := nsmulRec
  zsmul := zsmulRec

/-! ### Generic sparse containers

Modelled from the spec §3 "Sparse operator" and §4.2: a sparse operator is a
mapping from products to exact complex coefficients, zero coefficients never
persisted, iteration deterministic.  It is realised as an association list
strictly sorted by a fixed total key order, so that structural equality is
content equality. -/

/-- Lexicographic strict comparison on lists of naturals; every product key
is compared through an injective encoding into `List ℕ`. -/
def natListLt : List ℕ → List ℕ → Bool
  | [], [] => false
  | [], _ :: _ => true
  | _ :: _, [] => false
  | a :: as, b :: bs => if a < b then true else if b < a then false else natListLt as bs

/-- Lawfulness of a strict total key order (spec §4.4 "fixed total order"
used for canonical storage). -/
structure KeyLaws {κ : Type} (lt : κ → κ → Bool) : Prop where
  irrefl : ∀ a, lt a a = false
  lt_trans : ∀ a b c, lt a b = true → lt b c = true → lt a c = true
  eq_of_not_lt : ∀ a b, lt a b = false → lt b a = false → a = b

/-- Modelled from the spec: `get(product)` "returns the stored coefficient or
the additive identity (zero) if absent" (§4.2). -/
def sget {κ : Type} [DecidableEq κ] : List (κ × CComplex) → κ → CComplex
  | [], _ => 0
  | e :: m, k => if k = e.1 then e.2 else sget m k

/-- Modelled from the spec: `add(product, coefficient)` "accumulate — new
coefficient = old + given; removes the entry if the result is exactly zero"
(§4.2), inserting at the sorted position. -/
def madd {κ : Type} (lt : κ → κ → Bool) [DecidableEq κ] (k : κ) (c : CComplex) :
    List (κ × CComplex) → List (κ × CComplex)
  | [] => if c = 0 then [] else [(k, c)]
  | e :: m =>
    if lt k e.1 then (if c = 0 then e :: m else (k, c) :: e :: m)
    else if k = e.1 then (if e.2 + c = 0 then m else (k, e.2 + c) :: m)
    else e :: madd lt k c m

/-- Modelled from the spec: `set(product, coefficient)` "overwrite — replaces
rather than accumulates; a zero coefficient removes the entry" (§4.2). -/
def mset {κ : Type} (lt : κ → κ → Bool) [DecidableEq κ] (k : κ) (c : CComplex) :
    List (κ × CComplex) → List (κ × CComplex)
  | [] => if c = 0 then [] else [(k, c)]
  | e :: m =>
    if lt k e.1 then (if c = 0 then e :: m else (k, c) :: e :: m)
    else if k = e.1 then (if c = 0 then m else (k, c) :: m)
    else e :: mset lt k c m

/-- Modelled from the spec: container addition "union of entries, coefficients
added, zero entries pruned" (§4.2), realised by accumulating each entry of the
first container into the second via `add`. -/
def mplus {κ : Type} (lt : κ → κ → Bool) [DecidableEq κ]
    (m acc : List (κ × CComplex)) : List (κ × CComplex) :=
  m.foldr (fun e a => madd lt e.1 e.2 a) acc

/-- Modelled from the spec: scalar multiplication of a container (§4.2),
zero entries pruned. -/
def mscale {κ : Type} (c : CComplex) (m : List (κ × CComplex)) : List (κ × CComplex) :=
  m.filterMap (fun e => if c * e.2 = 0 then none else some (e.1, c * e.2))

/-- The keys currently stored in a container (its iteration support). -/
def keysOf {κ : Type} (m : List (κ × CComplex)) : List κ := m.map Prod.fst

/-- Canonical container: entries strictly sorted by the key order and no
zero coefficient persisted (spec §3 "Sparse operator"). -/
def Canon {κ : Type} (lt : κ → κ → Bool) (m : List (κ × CComplex)) : Prop :=
  List.Pairwise (fun a b => lt a.1 b.1 = true) m ∧ ∀ e ∈ m, e.2 ≠ 0

instance instDecCanon {κ : Type} (lt : κ → κ → Bool) [DecidableEq κ]
    (m : List (κ × CComplex)) : Decidable (Canon lt m) := by
  unfold Canon
  infer_instance

/-- Modelled from the spec: lifting a per-product transform to operator
containers by transforming "each (product, coefficient) entry independently"
and accumulating "into the target container via `add`" (§4.3). -/
def liftVia {κ₁ κ₂ : Type} (lt₂ : κ₂ → κ₂ → Bool) [DecidableEq κ₂]
    (f : κ₁ → List (κ₂ × CComplex)) (m : List (κ₁ × CComplex)) : List (κ₂ × CComplex) :=
  m.foldr (fun e acc => mplus lt₂ (mscale e.2 (f e.1)) acc) []

/-- The value-weighted sum of a function over a container's entries; the
abstraction through which linearity of lifted transforms is proved. -/
def entrySum {κ : Type} (g : κ → CComplex) (m : List (κ × CComplex)) : CComplex :=
  (m.map (fun e => e.2 * g e.1)).sum

/-! ### Product types

Modelled from the spec §3 "Product": spin-family products are index-sorted
maps from site to symbol; ladder-family products are two ascending index
sequences (creation indices, annihilation indices). -/

/-- Modelled from the spec: the error taxonomy (§7); every failure is a value
returned to the caller. -/
inductive StruqtureError
  | DuplicateIndex
  | IndexOutOfRange
  | NonHermitianCoefficient
  | SlotArityMismatch
  | ParseError
deriving DecidableEq

instance instDecEqExcept {ε α : Type} [DecidableEq ε] [DecidableEq α] :
    DecidableEq (Except ε α) := fun a b =>
  match a, b with
  | .ok x, .ok y => decidable_of_iff (x = y) (by simp)
  | .error e, .error f => decidable_of_iff (e = f) (by simp)
  | .ok _, .error _ => isFalse (by simp)
  | .error _, .ok _ => isFalse (by simp)

/-- The spin (Pauli) alphabet {X, Y, Z} (spec §3). -/
inductive Pauli
  | X
  | Y
  | Z
deriving DecidableEq

/-- The decoherence alphabet {X, iY, Z} (spec §3). -/
inductive DSym
  | X
  | IY
  | Z
deriving DecidableEq

/-- The plus/minus alphabet {+, −, Z} (spec §3). -/
inductive PMSym
  | Plus
  | Minus
  | Z
deriving DecidableEq

/-- Modelled from the spec: a Pauli product, "a mapping from site index to
symbol, with indices canonically sorted ascending" (§3). -/
abbrev PauliProduct := List (ℕ × Pauli)

/-- A decoherence product (same shape over the decoherence alphabet). -/
abbrev DecoherenceProduct := List (ℕ × DSym)

/-- A plus/minus product (same shape over the plus/minus alphabet). -/
abbrev PlusMinusProduct := List (ℕ × PMSym)

/-- Canonicity of a spin-family product: site indices strictly ascending. -/
def SiteCanon {σ : Type} (p : List (ℕ × σ)) : Prop :=
  List.Pairwise (fun a b => a.1 < b.1) p

instance instDecSiteCanon {σ : Type} (p : List (ℕ × σ)) : Decidable (SiteCanon p) := by
  unfold SiteCanon
  infer_instance

/-- Modelled from the spec: the chainable "set symbol at index" builder for
spin-family products — sort by index, last-write-wins on a repeated index
(§4.1, §6). -/
def setSite {σ : Type} (i : ℕ) (s : σ) : List (ℕ × σ) → List (ℕ × σ)
  | [] => [(i, s)]
  | e :: m =>
    if i < e.1 then (i, s) :: e :: m
    else if i = e.1 then (i, s) :: m
    else e :: setSite i s m

/-- The `x(i)` builder call on a Pauli product. -/
def PauliProduct.x (p : PauliProduct) (i : ℕ) : PauliProduct := setSite i Pauli.X p

/-- The `y(i)` builder call on a Pauli product. -/
def PauliProduct.y (p : PauliProduct) (i : ℕ) : PauliProduct := setSite i Pauli.Y p

/-- The `z(i)` builder call on a Pauli product. -/
def PauliProduct.z (p : PauliProduct) (i : ℕ) : PauliProduct := setSite i Pauli.Z p

/-- The `x(i)` builder call on a decoherence product. -/
def DecoherenceProduct.x (p : DecoherenceProduct) (i : ℕ) : DecoherenceProduct :=
  setSite i DSym.X p

/-- The `iy(i)` builder call on a decoherence product. -/
def DecoherenceProduct.iy (p : DecoherenceProduct) (i : ℕ) : DecoherenceProduct :=
  setSite i DSym.IY p

/-- The `z(i)` builder call on a decoherence product. -/
def DecoherenceProduct.z (p : DecoherenceProduct) (i : ℕ) : DecoherenceProduct :=
  setSite i DSym.Z p

/-- The `plus(i)` builder call on a plus/minus product. -/
def PlusMinusProduct.plus (p : PlusMinusProduct) (i : ℕ) : PlusMinusProduct :=
  setSite i PMSym.Plus p

/-- The `minus(i)` builder call on a plus/minus product. -/
def PlusMinusProduct.minus (p : PlusMinusProduct) (i : ℕ) : PlusMinusProduct :=
  setSite i PMSym.Minus p

/-- The `z(i)` builder call on a plus/minus product. -/
def PlusMinusProduct.z (p : PlusMinusProduct) (i : ℕ) : PlusMinusProduct :=
  setSite i PMSym.Z p

/-- Modelled from the spec: a fermionic ladder product — "two sorted
sequences (creation indices, annihilation indices)", no duplicate within
either sequence (§3). -/
structure FermionProduct where
  creators : List ℕ
  annihilators : List ℕ
deriving DecidableEq

/-- Modelled from the spec: a bosonic ladder product, same canonical shape
as the fermionic one (§3, §4.1 "reject uniformly for both families"). -/
structure BosonProduct where
  creators : List ℕ
  annihilators : List ℕ
deriving DecidableEq

/-- Strictly ascending index sequence. -/
def StrictSorted (l : List ℕ) : Prop := List.Pairwise (fun a b => a < b) l

instance instDecStrictSorted (l : List ℕ) : Decidable (StrictSorted l) := by
  unfold StrictSorted
  infer_instance

/-- Canonicity of a fermionic product (spec §3 invariant). -/
def FermionProduct.Canonical (t : FermionProduct) : Prop :=
  StrictSorted t.creators ∧ StrictSorted t.annihilators

instance instDecFermCanonical (t : FermionProduct) : Decidable t.Canonical := by
  unfold FermionProduct.Canonical
  infer_instance

/-- Canonicity of a bosonic product. -/
def BosonProduct.Canonical (t : BosonProduct) : Prop :=
  StrictSorted t.creators ∧ StrictSorted t.annihilators

/-- Ascending sort of a raw index list (spec §4.1). -/
def sortIndices (l : List ℕ) : List ℕ := List.insertionSort (fun a b => a ≤ b) l

/-- Adjacent-duplicate test; on a sorted list it detects any duplicate. -/
def hasAdjacentDup : List ℕ → Bool
  | [] => false
  | [_] => false
  | a :: b :: t => if a = b then true else hasAdjacentDup (b :: t)

/-- Modelled from the spec: ladder-product construction from two index lists —
"sort creation indices ascending and annihilation indices ascending
independently; fail with a DuplicateIndex error if the same index appears
twice within one of the two lists" (§4.1). -/
def ladderNew (creators annihilators : List ℕ) :
    Except StruqtureError (List ℕ × List ℕ) :=
  let cs := sortIndices creators
  let ans := sortIndices annihilators
  if hasAdjacentDup cs || hasAdjacentDup ans then Except.error StruqtureError.DuplicateIndex
  else Except.ok (cs, ans)

/-- The `FermionProduct(creators, annihilators)` constructor. -/
def FermionProduct.new (creators annihilators : List ℕ) :
    Except StruqtureError FermionProduct :=
  (ladderNew creators annihilators).map fun r => ⟨r.1, r.2⟩

/-- The `BosonProduct(creators, annihilators)` constructor. -/
def BosonProduct.new (creators annihilators : List ℕ) :
    Except StruqtureError BosonProduct :=
  (ladderNew creators annihilators).map fun r => ⟨r.1, r.2⟩

/-! ### Key encodings and orders -/

/-- Numeric code of a Pauli symbol (for key encoding). -/
def pauliCode : Pauli → ℕ
  | .X => 0
  | .Y => 1
  | .Z => 2

/-- Numeric code of a decoherence symbol. -/
def dsymCode : DSym → ℕ
  | .X => 0
  | .IY => 1
  | .Z => 2

/-- Numeric code of a plus/minus symbol. -/
def pmsymCode : PMSym → ℕ
  | .Plus => 0
  | .Minus => 1
  | .Z => 2

/-- Injective encoding of a spin-family product into a flat index list. -/
def encSites {σ : Type} (code : σ → ℕ) : List (ℕ × σ) → List ℕ
  | [] => []
  | e :: m => e.1 :: code e.2 :: encSites code m

/-- Injective encoding of a pair of index lists (length-prefixed). -/
def encPair (l r : List ℕ) : List ℕ := l.length :: (l ++ r)

/-- Key encoding of a fermionic product. -/
def encFermion (t : FermionProduct) : List ℕ := encPair t.creators t.annihilators

/-- Key encoding of a bosonic product. -/
def encBoson (t : BosonProduct) : List ℕ := encPair t.creators t.annihilators

/-- The fixed total order on Pauli products. -/
def pauliLt (a b : PauliProduct) : Bool :=
  natListLt (encSites pauliCode a) (encSites pauliCode b)

/-- The fixed total order on decoherence products. -/
def dpLt (a b : DecoherenceProduct) : Bool :=
  natListLt (encSites dsymCode a) (encSites dsymCode b)

/-- The fixed total order on plus/minus products. -/
def pmLt (a b : PlusMinusProduct) : Bool :=
  natListLt (encSites pmsymCode a) (encSites pmsymCode b)

/-- The fixed total order on fermionic products (spec §3 "fixed total
order", also used for Hermitian-representative selection). -/
def fermLt (a b : FermionProduct) : Bool := natListLt (encFermion a) (encFermion b)

/-- The fixed total order on ordered pairs of decoherence products (keys of
Lindblad noise containers, spec §3). -/
def dpPairLt (a b : DecoherenceProduct × DecoherenceProduct) : Bool :=
  natListLt (encPair (encSites dsymCode a.1) (encSites dsymCode a.2))
    (encPair (encSites dsymCode b.1) (encSites dsymCode b.2))

/-! ### The fermionic algebra and the Jordan-Wigner transform

Modelled from the spec §4.3: per-site expansion tables, Z-strings,
normal-ordered multiplication with anticommutation sign bookkeeping (§4.1),
and the lift to operator containers. -/

/-- A single ladder operator: creation or annihilation at a mode (spec §3). -/
inductive Ladder
  | create (i : ℕ)
  | annihilate (i : ℕ)
deriving DecidableEq

/-- The fermionic operator container (`FermionSystem` of the binding layer). -/
abbrev FermionSystem := List (FermionProduct × CComplex)

/-- The spin operator container (`SpinSystem` of the binding layer). -/
abbrev SpinSystem := List (PauliProduct × CComplex)

/-- Insertion of an index into an ascending index sequence. -/
def insertIdx (i : ℕ) : List ℕ → List ℕ
  | [] => [i]
  | a :: t => if i < a then i :: a :: t else a :: insertIdx i t

/-- How many entries of the sequence are below `i` (anticommuting swaps
needed to move a ladder operator to its sorted position, spec §4.1). -/
def countBelow (l : List ℕ) (i : ℕ) : ℕ := (l.filter (fun a => a < i)).length

/-- The anticommutation sign `(−1)^n` (spec §4.1 sign accumulator). -/
def signPow (n : ℕ) : CComplex := if n % 2 = 0 then (dy 1 0 0) else (dy (-1) 0 0)

/-- Modelled from the spec §4.1/§4.3: left-multiply one ladder operator onto a
canonical fermionic product and normal-order, tracking the accumulated
anticommutation sign; a repeated creator or annihilator makes the term
vanish, an annihilator contracts against a matching creator. -/
def ladderMulTerm : Ladder → FermionProduct → List (CComplex × FermionProduct)
  | .create i, t =>
    if i ∈ t.creators then []
    else [(signPow (countBelow t.creators i), ⟨insertIdx i t.creators, t.annihilators⟩)]
  | .annihilate i, t =>
    (if i ∈ t.creators then
      [(signPow (countBelow t.creators i), ⟨t.creators.erase i, t.annihilators⟩)]
     else []) ++
    (if i ∈ t.annihilators then []
     else [(signPow t.creators.length * signPow (countBelow t.annihilators i),
            ⟨t.creators, insertIdx i t.annihilators⟩)])

/-- Left multiplication of one ladder operator onto a fermionic operator. -/
def ladderMulOp (l : Ladder) (op : FermionSystem) : FermionSystem :=
  op.foldr (fun e acc =>
    (ladderMulTerm l e.1).foldr (fun st a => madd fermLt st.2 (st.1 * e.2) a) acc) []

/-- The ladder operators of a canonical product, in operator order. -/
def lettersOf (t : FermionProduct) : List Ladder :=
  t.creators.map Ladder.create ++ t.annihilators.map Ladder.annihilate

/-- Left multiplication of a canonical fermionic product onto an operator. -/
def termMulOp (t : FermionProduct) (op : FermionSystem) : FermionSystem :=
  (lettersOf t).foldr ladderMulOp op

/-- Fermionic operator multiplication (bilinear extension). -/
def opMulOp (p q : FermionSystem) : FermionSystem :=
  liftVia fermLt (fun t => termMulOp t q) p

/-- The identity fermionic operator. -/
def fermOne : FermionSystem := [(⟨[], []⟩, (dy 1 0 0))]

/-- Modelled from the spec §4.3: "Z at i → (1 − 2·n_i)" — the two-term
expansion `+1·identity − 2·(creation_i · annihilation_i)`. -/
def jwZnumber (i : ℕ) : FermionSystem :=
  madd fermLt ⟨[i], [i]⟩ (dy (-2) 0 0) (madd fermLt ⟨[], []⟩ (dy 1 0 0) [])

/-- The operator `a_i + a_i†`. -/
def aPlusADag (i : ℕ) : FermionSystem :=
  madd fermLt ⟨[i], []⟩ (dy 1 0 0) (madd fermLt ⟨[], [i]⟩ (dy 1 0 0) [])

/-- The operator `i·(a_i† − a_i)`. -/
def iADagMinusA (i : ℕ) : FermionSystem :=
  madd fermLt ⟨[i], []⟩ (dy 0 1 0) (madd fermLt ⟨[], [i]⟩ (dy 0 (-1) 0) [])

/-- Modelled from the spec §4.3: the Z-string below `i`, the product of
`(1 − 2·n_k)` over all `k < i`. -/
def zString (i : ℕ) : FermionSystem :=
  (List.range i).foldl (fun acc k => opMulOp acc (jwZnumber k)) fermOne

/-- Modelled from the spec §4.3: the per-site symbol expansion table of the
spin → fermion Jordan-Wigner transform. -/
def jwSite (i : ℕ) : Pauli → FermionSystem
  | .Z => jwZnumber i
  | .X => opMulOp (aPlusADag i) (zString i)
  | .Y => opMulOp (iADagMinusA i) (zString i)

/-- Modelled from the spec §4.3: the transform of a Pauli product is "the
ordered algebraic product of each site's expansion across ascending index". -/
def jwPauliProduct (p : PauliProduct) : FermionSystem :=
  p.foldl (fun acc e => opMulOp acc (jwSite e.1 e.2)) fermOne

/-- The decoherence-alphabet site table: X, iY = i·Y, Z (spec §4.3
"the same per-symbol table restricted to their narrower alphabets"). -/
def jwDSite (i : ℕ) : DSym → FermionSystem
  | .X => jwSite i Pauli.X
  | .IY => mscale (dy 0 1 0) (jwSite i Pauli.Y)
  | .Z => jwSite i Pauli.Z

/-- The transform of a decoherence product. -/
def jwDecoherenceProduct (p : DecoherenceProduct) : FermionSystem :=
  p.foldl (fun acc e => opMulOp acc (jwDSite e.1 e.2)) fermOne

/-- The plus/minus site table: `+ = (X+iY)/2 → a_i·Z-string`,
`− = (X−iY)/2 → a_i†·Z-string`, Z as for Pauli (spec §4.3). -/
def jwPMSite (i : ℕ) : PMSym → FermionSystem
  | .Plus => opMulOp (madd fermLt ⟨[], [i]⟩ (dy 1 0 0) []) (zString i)
  | .Minus => opMulOp (madd fermLt ⟨[i], []⟩ (dy 1 0 0) []) (zString i)
  | .Z => jwSite i Pauli.Z

/-- The transform of a plus/minus product. -/
def jwPlusMinusProduct (p : PlusMinusProduct) : FermionSystem :=
  p.foldl (fun acc e => opMulOp acc (jwPMSite e.1 e.2)) fermOne

/-- Modelled from the spec §4.3 "Lift to operators": transform each entry
independently and accumulate into the target container via `add`. -/
def spinToFermion (O : SpinSystem) : FermionSystem := liftVia fermLt jwPauliProduct O

/-! ### The spin algebra and the fermion → spin transform -/

/-- Single-site Pauli multiplication with phase: `σ_s · σ_t`. -/
def pauliSymMul : Pauli → Pauli → CComplex × Option Pauli
  | .X, .X => (dy 1 0 0, none)
  | .X, .Y => (dy 0 1 0, some .Z)
  | .X, .Z => (dy 0 (-1) 0, some .Y)
  | .Y, .X => (dy 0 (-1) 0, some .Z)
  | .Y, .Y => (dy 1 0 0, none)
  | .Y, .Z => (dy 0 1 0, some .X)
  | .Z, .X => (dy 0 1 0, some .Y)
  | .Z, .Y => (dy 0 (-1) 0, some .X)
  | .Z, .Z => (dy 1 0 0, none)

/-- Multiply the single-site factor `σ_s` at site `i` into a sorted Pauli
product, with the accumulated phase. -/
def pauliInsertMul (i : ℕ) (s : Pauli) : PauliProduct → CComplex × PauliProduct
  | [] => (dy 1 0 0, [(i, s)])
  | e :: q =>
    if i < e.1 then (dy 1 0 0, (i, s) :: e :: q)
    else if i = e.1 then
      match pauliSymMul s e.2 with
      | (ph, none) => (ph, q)
      | (ph, some u) => (ph, (i, u) :: q)
    else
      let r := pauliInsertMul i s q
      (r.1, e :: r.2)

/-- Product of two Pauli products: a single Pauli product with a phase. -/
def pauliProdMul (p q : PauliProduct) : CComplex × PauliProduct :=
  p.foldr (fun e r =>
    let r' := pauliInsertMul e.1 e.2 r.2
    (r'.1 * r.1, r'.2)) (dy 1 0 0, q)

/-- Left multiplication of a single Pauli product onto a spin operator. -/
def spinTermMulOp (p : PauliProduct) (op : SpinSystem) : SpinSystem :=
  op.foldr (fun e acc =>
    let r := pauliProdMul p e.1
    madd pauliLt r.2 (r.1 * e.2) acc) []

/-- Spin operator multiplication (bilinear extension). -/
def spinOpMul (a b : SpinSystem) : SpinSystem :=
  liftVia pauliLt (fun p => spinTermMulOp p b) a

/-- On the spin side the Z-string below `i` is the single product with Z at
every site `k < i`. -/
def zStringSpin (i : ℕ) : PauliProduct := (List.range i).map (fun k => (k, Pauli.Z))

/-- Modelled from the spec §4.3 (fermion → spin): "creation/annihilation at
index i map to (X∓iY)/2 at i combined with the same Z-string(<i) dressing". -/
def fsLetter : Ladder → SpinSystem
  | .create i =>
    madd pauliLt (zStringSpin i ++ [(i, Pauli.X)]) (dy 1 0 1)
      (madd pauliLt (zStringSpin i ++ [(i, Pauli.Y)]) (dy 0 (-1) 1) [])
  | .annihilate i =>
    madd pauliLt (zStringSpin i ++ [(i, Pauli.X)]) (dy 1 0 1)
      (madd pauliLt (zStringSpin i ++ [(i, Pauli.Y)]) (dy 0 1 1) [])

/-- The identity spin operator. -/
def spinOne : SpinSystem := [([], (dy 1 0 0))]

/-- The fermion → spin transform of a fermionic product: the ordered product
of the letter images (spec §4.3 "the composition law is identical"). -/
def fsFermionProduct (t : FermionProduct) : SpinSystem :=
  (lettersOf t).foldr (fun l acc => spinOpMul (fsLetter l) acc) spinOne

/-- The operator lift of the fermion → spin transform. -/
def fermionToSpin (O : FermionSystem) : SpinSystem := liftVia pauliLt fsFermionProduct O

/-! ### Hermitian (Hamiltonian) containers

Modelled from the spec §3 "Hermitian product variant" and §4.1/§4.2: a
Hamiltonian container stores only order-minimal conjugate representatives;
self-conjugate entries must stay real. -/

/-- The conjugate `P†` of a fermionic product: creation and annihilation
roles reversed (spec §3). -/
def FermionProduct.hconj (t : FermionProduct) : FermionProduct :=
  ⟨t.annihilators, t.creators⟩

/-- Modelled from the spec §4.1: "given P, compute P†; if P† < P under the
fixed total order, represent as (P†, conjugate-of-intended-coefficient)". -/
def hermCanonical (t : FermionProduct) (c : CComplex) : FermionProduct × CComplex :=
  if fermLt t.hconj t then (t.hconj, c.conj) else (t, c)

/-- Modelled from the spec §4.2: Hermitian-container `add` — canonicalize
first, fail with NonHermitianCoefficient if the canonical product is
self-conjugate and the net (old + given) coefficient's imaginary part is
non-zero. -/
def hadd (t : FermionProduct) (c : CComplex) (m : FermionSystem) :
    Except StruqtureError FermionSystem :=
  let r := hermCanonical t c
  if r.1.hconj = r.1 ∧ (sget m r.1 + r.2).im ≠ 0 then
    Except.error StruqtureError.NonHermitianCoefficient
  else Except.ok (madd fermLt r.1 r.2 m)

/-- Modelled from the spec §4.2: Hermitian-container `set` (overwrite), with
the same canonicalization and validation on the written coefficient. -/
def hset (t : FermionProduct) (c : CComplex) (m : FermionSystem) :
    Except StruqtureError FermionSystem :=
  let r := hermCanonical t c
  if r.1.hconj = r.1 ∧ r.2.im ≠ 0 then
    Except.error StruqtureError.NonHermitianCoefficient
  else Except.ok (mset fermLt r.1 r.2 m)

/-- Modelled from the spec §4.2: Hermitian-container `get` — look up by
canonical form, return the conjugated value if the query was the
non-representative member of its conjugate pair. -/
def hget (m : FermionSystem) (t : FermionProduct) : CComplex :=
  if fermLt t.hconj t then (sget m t.hconj).conj else sget m t

/-- The spec §8 Hermitian storage invariant: every stored self-conjugate
product carries a coefficient with imaginary part exactly zero. -/
def HermInv (m : FermionSystem) : Prop :=
  ∀ e ∈ m, e.1.hconj = e.1 → e.2.im = 0

instance instDecHermInv (m : FermionSystem) : Decidable (HermInv m) := by
  unfold HermInv
  infer_instance

/-! ### Canonical textual form

Modelled from the spec §6: "every product and operator type must support a
round-trip `to_string` / `from_string` pair such that parsing the printed
form reproduces an equal (by structural equality) value".  Spin-family
products print as index-symbol runs ("0X1iY2Z"), ladder products as tagged
index runs ("c0c2a1"), mixed products as tagged colon-terminated slots. -/

/-- Decimal digits of an index, most significant first ("0" for zero). -/
def natChars (n : ℕ) : List Char :=
  if n = 0 then ['0'] else ((Nat.digits 10 n).map Nat.digitChar).reverse

/-- The numeric value of a decimal digit character. -/
def digitVal (c : Char) : ℕ := c.toNat - 48

/-- The index denoted by a run of decimal digit characters. -/
def charsToNat (l : List Char) : ℕ := Nat.ofDigits 10 ((l.map digitVal).reverse)

/-- Split off the leading run of decimal digits. -/
def takeDigits : List Char → List Char × List Char
  | [] => ([], [])
  | c :: rest =>
    if c.isDigit then
      let r := takeDigits rest
      (c :: r.1, r.2)
    else ([], c :: rest)

/-- Parse one decimal index (at least one digit). -/
def parseNat (l : List Char) : Option (ℕ × List Char) :=
  let r := takeDigits l
  if r.1.isEmpty then none else some (charsToNat r.1, r.2)

/-- The printed form of a spin-family product, given the symbol spelling. -/
def printSites {σ : Type} (symChars : σ → List Char) : List (ℕ × σ) → List Char
  | [] => []
  | e :: m => natChars e.1 ++ symChars e.2 ++ printSites symChars m

/-- Parse a spin-family product as a run of index-symbol pairs (fuel-bounded
recursion; the fuel is an upper bound on the number of sites). -/
def parseSites {σ : Type} (symParse : List Char → Option (σ × List Char)) :
    ℕ → List Char → Option (List (ℕ × σ))
  | _, [] => some []
  | 0, _ :: _ => none
  | fuel + 1, c :: rest =>
    match parseNat (c :: rest) with
    | none => none
    | some (i, rest1) =>
      match symParse rest1 with
      | none => none
      | some (s, rest2) =>
        match parseSites symParse fuel rest2 with
        | some m => some ((i, s) :: m)
        | none => none

/-- Spelling of a Pauli symbol. -/
def pauliChars : Pauli → List Char
  | .X => ['X']
  | .Y => ['Y']
  | .Z => ['Z']

/-- Parse one Pauli symbol. -/
def parsePauliSym : List Char → Option (Pauli × List Char)
  | 'X' :: r => some (.X, r)
  | 'Y' :: r => some (.Y, r)
  | 'Z' :: r => some (.Z, r)
  | _ => none

/-- Spelling of a decoherence symbol ("iY" is two characters). -/
def dsymChars : DSym → List Char
  | .X => ['X']
  | .IY => ['i', 'Y']
  | .Z => ['Z']

/-- Parse one decoherence symbol. -/
def parseDSym : List Char → Option (DSym × List Char)
  | 'X' :: r => some (.X, r)
  | 'i' :: 'Y' :: r => some (.IY, r)
  | 'Z' :: r => some (.Z, r)
  | _ => none

/-- Spelling of a plus/minus symbol. -/
def pmsymChars : PMSym → List Char
  | .Plus => ['+']
  | .Minus => ['-']
  | .Z => ['Z']

/-- Parse one plus/minus symbol. -/
def parsePMSym : List Char → Option (PMSym × List Char)
  | '+' :: r => some (.Plus, r)
  | '-' :: r => some (.Minus, r)
  | 'Z' :: r => some (.Z, r)
  | _ => none

/-- Decidable canonicity test of a spin-family product. -/
def sitesSorted {σ : Type} : List (ℕ × σ) → Bool
  | [] => true
  | [_] => true
  | a :: b :: t => if a.1 < b.1 then sitesSorted (b :: t) else false

/-- Decidable strict-ascension test of an index sequence. -/
def idxSorted : List ℕ → Bool
  | [] => true
  | [_] => true
  | a :: b :: t => if a < b then idxSorted (b :: t) else false

/-- `to_string` of a Pauli product. -/
def PauliProduct.toStr (p : PauliProduct) : String := ⟨printSites pauliChars p⟩

/-- `from_string` of a Pauli product: parse, then validate canonicity. -/
def PauliProduct.fromStr (s : String) : Except StruqtureError PauliProduct :=
  match parseSites parsePauliSym (s.data.length + 1) s.data with
  | some p => if sitesSorted p then .ok p else .error StruqtureError.ParseError
  | none => .error StruqtureError.ParseError

/-- `to_string` of a decoherence product. -/
def DecoherenceProduct.toStr (p : DecoherenceProduct) : String := ⟨printSites dsymChars p⟩

/-- `from_string` of a decoherence product. -/
def DecoherenceProduct.fromStr (s : String) : Except StruqtureError DecoherenceProduct :=
  match parseSites parseDSym (s.data.length + 1) s.data with
  | some p => if sitesSorted p then .ok p else .error StruqtureError.ParseError
  | none => .error StruqtureError.ParseError

/-- `to_string` of a plus/minus product. -/
def PlusMinusProduct.toStr (p : PlusMinusProduct) : String := ⟨printSites pmsymChars p⟩

/-- `from_string` of a plus/minus product. -/
def PlusMinusProduct.fromStr (s : String) : Except StruqtureError PlusMinusProduct :=
  match parseSites parsePMSym (s.data.length + 1) s.data with
  | some p => if sitesSorted p then .ok p else .error StruqtureError.ParseError
  | none => .error StruqtureError.ParseError

/-- Print an index run under a ladder tag ('c' or 'a'). -/
def printTagged (tag : Char) : List ℕ → List Char
  | [] => []
  | i :: t => tag :: (natChars i ++ printTagged tag t)

/-- The printed form of a ladder product: creators then annihilators. -/
def printLadder (cs ans : List ℕ) : List Char := printTagged 'c' cs ++ printTagged 'a' ans

/-- Parse a run of indices under a ladder tag. -/
def parseTagged (tag : Char) : ℕ → List Char → Option (List ℕ × List Char)
  | _, [] => some ([], [])
  | 0, _ :: _ => none
  | fuel + 1, c :: rest =>
    if c = tag then
      match parseNat rest with
      | none => none
      | some (i, rest2) =>
        match parseTagged tag fuel rest2 with
        | some (l, rest3) => some (i :: l, rest3)
        | none => none
    else some ([], c :: rest)

/-- Parse a ladder product's two index runs; the whole input must be consumed. -/
def parseLadder (l : List Char) : Option (List ℕ × List ℕ) :=
  match parseTagged 'c' (l.length + 1) l with
  | none => none
  | some (cs, rest) =>
    match parseTagged 'a' (rest.length + 1) rest with
    | none => none
    | some (ans, rest2) => if rest2.isEmpty then some (cs, ans) else none

/-- `to_string` of a fermionic product. -/
def FermionProduct.toStr (t : FermionProduct) : String :=
  ⟨printLadder t.creators t.annihilators⟩

/-- `from_string` of a fermionic product. -/
def FermionProduct.fromStr (s : String) : Except StruqtureError FermionProduct :=
  match parseLadder s.data with
  | some (cs, ans) =>
    if idxSorted cs && idxSorted ans then .ok ⟨cs, ans⟩
    else .error StruqtureError.ParseError
  | none => .error StruqtureError.ParseError

/-- `to_string` of a bosonic product. -/
def BosonProduct.toStr (t : BosonProduct) : String :=
  ⟨printLadder t.creators t.annihilators⟩

/-- `from_string` of a bosonic product. -/
def BosonProduct.fromStr (s : String) : Except StruqtureError BosonProduct :=
  match parseLadder s.data with
  | some (cs, ans) =>
    if idxSorted cs && idxSorted ans then .ok ⟨cs, ans⟩
    else .error StruqtureError.ParseError
  | none => .error StruqtureError.ParseError

/-! ### Mixed products (spec §3 "Mixed product", §4.4) -/

/-- Modelled from the spec: an ordered tuple of one product per declared
sub-system slot (spin, boson, fermion slots). -/
structure MixedProduct where
  spins : List PauliProduct
  bosons : List BosonProduct
  fermions : List FermionProduct
deriving DecidableEq

/-- A mixed decoherence product (spin slots over the decoherence alphabet). -/
structure MixedDecoherenceProduct where
  spins : List DecoherenceProduct
  bosons : List BosonProduct
  fermions : List FermionProduct
deriving DecidableEq

/-- The printed form of one tagged, colon-terminated slot. -/
def printSlot (tag : Char) (inner : List Char) : List Char := tag :: (inner ++ [':'])

/-- The printed form of a mixed product: spin slots, boson slots, fermion
slots, each tagged and colon-terminated. -/
def printMixed (sp : List (List Char)) (bo : List (List Char)) (fe : List (List Char)) :
    List Char :=
  (sp.map (printSlot 'S')).foldr (· ++ ·)
    ((bo.map (printSlot 'B')).foldr (· ++ ·)
      ((fe.map (printSlot 'F')).foldr (· ++ ·) []))

/-- Split off one slot body up to the next colon. -/
def takeUntilColon : List Char → List Char × Option (List Char)
  | [] => ([], none)
  | c :: rest =>
    if c = ':' then ([], some rest)
    else
      let r := takeUntilColon rest
      (c :: r.1, r.2)

/-- Parse the run of slots under one tag. -/
def parseSlots (tag : Char) : ℕ → List Char → Option (List (List Char) × List Char)
  | _, [] => some ([], [])
  | 0, _ :: _ => none
  | fuel + 1, c :: rest =>
    if c = tag then
      match takeUntilColon rest with
      | (_, none) => none
      | (inner, some rest2) =>
        match parseSlots tag fuel rest2 with
        | some (l, rest3) => some (inner :: l, rest3)
        | none => none
    else some ([], c :: rest)

/-- Parse a mixed product's three slot runs; the input must be consumed. -/
def parseMixed (l : List Char) : Option (List (List Char) × List (List Char) × List (List Char)) :=
  match parseSlots 'S' (l.length + 1) l with
  | none => none
  | some (sp, rest) =>
    match parseSlots 'B' (rest.length + 1) rest with
    | none => none
    | some (bo, rest2) =>
      match parseSlots 'F' (rest2.length + 1) rest2 with
      | none => none
      | some (fe, rest3) => if rest3.isEmpty then some (sp, bo, fe) else none

/-- Map a parser over parsed slot bodies, failing if any slot fails. -/
def mapSlots {α : Type} (f : List Char → Except StruqtureError α) :
    List (List Char) → Except StruqtureError (List α)
  | [] => .ok []
  | x :: t =>
    match f x, mapSlots f t with
    | .ok a, .ok l => .ok (a :: l)
    | .error e, _ => .error e
    | _, .error e => .error e

/-- `to_string` of a mixed product. -/
def MixedProduct.toStr (m : MixedProduct) : String :=
  ⟨printMixed (m.spins.map (printSites pauliChars)) (m.bosons.map fun b => printLadder b.creators b.annihilators)
    (m.fermions.map fun f => printLadder f.creators f.annihilators)⟩

/-- `from_string` of a mixed product. -/
def MixedProduct.fromStr (s : String) : Except StruqtureError MixedProduct :=
  match parseMixed s.data with
  | none => .error StruqtureError.ParseError
  | some (sp, bo, fe) =>
    match mapSlots (fun l => PauliProduct.fromStr ⟨l⟩) sp,
      mapSlots (fun l => BosonProduct.fromStr ⟨l⟩) bo,
      mapSlots (fun l => FermionProduct.fromStr ⟨l⟩) fe with
    | .ok a, .ok b, .ok c => .ok ⟨a, b, c⟩
    | _, _, _ => .error StruqtureError.ParseError

/-- `to_string` of a mixed decoherence product. -/
def MixedDecoherenceProduct.toStr (m : MixedDecoherenceProduct) : String :=
  ⟨printMixed (m.spins.map (printSites dsymChars)) (m.bosons.map fun b => printLadder b.creators b.annihilators)
    (m.fermions.map fun f => printLadder f.creators f.annihilators)⟩

/-- `from_string` of a mixed decoherence product. -/
def MixedDecoherenceProduct.fromStr (s : String) : Except StruqtureError MixedDecoherenceProduct :=
  match parseMixed s.data with
  | none => .error StruqtureError.ParseError
  | some (sp, bo, fe) =>
    match mapSlots (fun l => DecoherenceProduct.fromStr ⟨l⟩) sp,
      mapSlots (fun l => BosonProduct.fromStr ⟨l⟩) bo,
      mapSlots (fun l => FermionProduct.fromStr ⟨l⟩) fe with
    | .ok a, .ok b, .ok c => .ok ⟨a, b, c⟩
    | _, _, _ => .error StruqtureError.ParseError

/-! ### Hermitian product variants and the jordan_wigner surface -/

/-- Modelled from the spec §3: the Hermitian fermionic product variant,
storing the order-minimal conjugate representative. -/
structure HermitianFermionProduct where
  prod : FermionProduct
deriving DecidableEq

/-- Canonicity of a Hermitian fermionic product: underlying canonicity plus
representativeness (P† is not below P in the fixed total order). -/
def HermitianFermionProduct.Canonical (h : HermitianFermionProduct) : Prop :=
  h.prod.Canonical ∧ fermLt h.prod.hconj h.prod = false

instance instDecHermFermCanonical (h : HermitianFermionProduct) : Decidable h.Canonical := by
  unfold HermitianFermionProduct.Canonical
  infer_instance

/-- `to_string` of a Hermitian fermionic product (same canonical form as the
underlying product). -/
def HermitianFermionProduct.toStr (h : HermitianFermionProduct) : String := h.prod.toStr

/-- `from_string` of a Hermitian fermionic product: parse the underlying
product, then validate representativeness. -/
def HermitianFermionProduct.fromStr (s : String) :
    Except StruqtureError HermitianFermionProduct :=
  match FermionProduct.fromStr s with
  | .ok t =>
    if fermLt t.hconj t then .error StruqtureError.ParseError else .ok ⟨t⟩
  | .error e => .error e

/-- The Hermitian mixed product variant (spec §3, the `HermitianMixedProduct`
of the binding tests); printed as the underlying mixed product. -/
structure HermitianMixedProduct where
  prod : MixedProduct
deriving DecidableEq

/-- `to_string` of a Hermitian mixed product. -/
def HermitianMixedProduct.toStr (h : HermitianMixedProduct) : String := h.prod.toStr

/-- `from_string` of a Hermitian mixed product. -/
def HermitianMixedProduct.fromStr (s : String) :
    Except StruqtureError HermitianMixedProduct :=
  match MixedProduct.fromStr s with
  | .ok m => .ok ⟨m⟩
  | .error e => .error e

/-- The spin Hamiltonian container kind (`SpinHamiltonianSystem`): the
Hermitian-constrained container of the spin family (spec §3). -/
structure SpinHamiltonianSystem where
  toOp : SpinSystem
deriving DecidableEq

/-- Modelled from the spec §4.3/tests: `jordan_wigner()` on a Pauli product
returns a whole fermionic operator container. -/
def PauliProduct.jordanWigner (p : PauliProduct) : FermionSystem := jwPauliProduct p

/-- `jordan_wigner()` on a decoherence product. -/
def DecoherenceProduct.jordanWigner (p : DecoherenceProduct) : FermionSystem :=
  jwDecoherenceProduct p

/-- `jordan_wigner()` on a plus/minus product. -/
def PlusMinusProduct.jordanWigner (p : PlusMinusProduct) : FermionSystem :=
  jwPlusMinusProduct p

/-- `jordan_wigner()` on a fermionic product returns a whole spin operator
container. -/
def FermionProduct.jordanWigner (t : FermionProduct) : SpinSystem := fsFermionProduct t

/-- The fermionic operator a Hermitian fermionic product stands for: the
representative plus its conjugate (the representative alone when
self-conjugate). -/
def hermFermionOperatorOf (h : HermitianFermionProduct) : FermionSystem :=
  if h.prod.hconj = h.prod then madd fermLt h.prod (dy 1 0 0) []
  else madd fermLt h.prod.hconj (dy 1 0 0) (madd fermLt h.prod (dy 1 0 0) [])

/-- Modelled from the spec §4.3: `jordan_wigner()` on a Hermitian fermionic
product returns a spin Hamiltonian container ("Hermiticity is preserved by
the transform"). -/
def HermitianFermionProduct.jordanWigner (h : HermitianFermionProduct) :
    SpinHamiltonianSystem :=
  ⟨fermionToSpin (hermFermionOperatorOf h)⟩

/-! ### Lindblad noise accessors (spec §3, §4.2; claim about mixed-form keys) -/

/-- Modelled from the binding tests: an accessor key component may be a
product object or its canonical string form (spec §4.4 "equivalent alternate
constructors, not two different semantics"). -/
inductive DPInput
  | prod (p : DecoherenceProduct)
  | str (s : String)

/-- Resolve an accessor key component to a decoherence product. -/
def resolveDP : DPInput → Except StruqtureError DecoherenceProduct
  | .prod p => .ok p
  | .str s => DecoherenceProduct.fromStr s

/-- The spin Lindblad noise container: keyed by ordered pairs of decoherence
products (spec §3 "Lindblad noise operator"). -/
abbrev SpinLindbladNoiseOperator := List ((DecoherenceProduct × DecoherenceProduct) × CComplex)

/-- Lindblad `set` accepting mixed-form key components. -/
def noiseSet (key : DPInput × DPInput) (c : CComplex) (m : SpinLindbladNoiseOperator) :
    Except StruqtureError SpinLindbladNoiseOperator :=
  match resolveDP key.1, resolveDP key.2 with
  | .ok l, .ok r => .ok (mset dpPairLt (l, r) c m)
  | .error e, _ => .error e
  | _, .error e => .error e

/-- Lindblad `get` accepting mixed-form key components. -/
def noiseGet (key : DPInput × DPInput) (m : SpinLindbladNoiseOperator) :
    Except StruqtureError CComplex :=
  match resolveDP key.1, resolveDP key.2 with
  | .ok l, .ok r => .ok (sget m (l, r))
  | .error e, _ => .error e
  | _, .error e => .error e

/-- Lindblad `add_operator_product` accepting mixed-form key components. -/
def noiseAdd (key : DPInput × DPInput) (c : CComplex) (m : SpinLindbladNoiseOperator) :
    Except StruqtureError SpinLindbladNoiseOperator :=
  match resolveDP key.1, resolveDP key.2 with
  | .ok l, .ok r => .ok (madd dpPairLt (l, r) c m)
  | .error e, _ => .error e
  | _, .error e => .error e

/-! ### Theorems: generic container laws -/

section GenericMap

variable {κ : Type} {lt : κ → κ → Bool}

theorem KeyLaws.ne_of_lt (hl : KeyLaws lt) {a b : κ} (h : lt a b = true) : a ≠ b := by
  intro he
  subst he
  simp [hl.irrefl] at h

theorem KeyLaws.asymm (hl : KeyLaws lt) {a b : κ} (h : lt a b = true) : lt b a = false := by
  cases hba : lt b a with
  | false => rfl
  | true =>
    have := hl.lt_trans a b a h hba
    simp [hl.irrefl] at this

theorem KeyLaws.lt_of_ne (hl : KeyLaws lt) {a b : κ} (hne : a ≠ b) (h : lt a b = false) : lt b a = true := by
  cases hba : lt b a with
  | true => rfl
  | false => exact absurd (hl.eq_of_not_lt a b h hba) hne

theorem sget_eq_zero_of_below (hl : KeyLaws lt) [DecidableEq κ] {m : List (κ × CComplex)} {k : κ}
    (h : ∀ e ∈ m, lt k e.1 = true) : sget m k = 0 := by
  induction m with
  | nil => rfl
  | cons e m ih =>
    have hk : k ≠ e.1 := hl.ne_of_lt (h e (List.mem_cons_self e m))
    simp only [sget, if_neg hk]
    exact ih fun e' he' => h e' (List.mem_cons_of_mem e he')

theorem canon_tail (hl : KeyLaws lt) {e : κ × CComplex} {m : List (κ × CComplex)}
    (h : Canon lt (e :: m)) : Canon lt m :=
  ⟨h.1.of_cons, fun e' he' => h.2 e' (List.mem_cons_of_mem e he')⟩

theorem canon_below (hl : KeyLaws lt) {e : κ × CComplex} {m : List (κ × CComplex)}
    (h : Canon lt (e :: m)) : ∀ e' ∈ m, lt e.1 e'.1 = true :=
  (List.pairwise_cons.mp h.1).1

theorem sget_head_zero (hl : KeyLaws lt) [DecidableEq κ] {e : κ × CComplex} {m : List (κ × CComplex)}
    (h : Canon lt (e :: m)) : sget m e.1 = 0 :=
  sget_eq_zero_of_below hl (canon_below hl h)

theorem mem_madd (hl : KeyLaws lt) [DecidableEq κ] {m : List (κ × CComplex)} {k : κ} {c : CComplex}
    {e' : κ × CComplex} (h : e' ∈ madd lt k c m) : e'.1 = k ∨ e' ∈ m := by
  induction m with
  | nil =>
    by_cases hc : c = 0
    · rw [madd, if_pos hc] at h
      exact absurd h (List.not_mem_nil e')
    · rw [madd, if_neg hc] at h
      rw [List.mem_singleton.mp h]
      exact Or.inl rfl
  | cons e m ih =>
    simp only [madd] at h
    by_cases h1 : lt k e.1 = true
    · rw [if_pos h1] at h
      by_cases hc : c = 0
      · rw [if_pos hc] at h
        exact Or.inr h
      · rw [if_neg hc] at h
        rcases List.mem_cons.mp h with rfl | hm
        · exact Or.inl rfl
        · exact Or.inr hm
    · rw [if_neg h1] at h
      by_cases h2 : k = e.1
      · rw [if_pos h2] at h
        by_cases hz : e.2 + c = 0
        · rw [if_pos hz] at h
          exact Or.inr (List.mem_cons_of_mem e h)
        · rw [if_neg hz] at h
          rcases List.mem_cons.mp h with rfl | hm
          · exact Or.inl rfl
          · exact Or.inr (List.mem_cons_of_mem e hm)
      · rw [if_neg h2] at h
        rcases List.mem_cons.mp h with rfl | hm
        · exact Or.inr (List.mem_cons_self e' m)
        · rcases ih hm with h' | h'
          · exact Or.inl h'
          · exact Or.inr (List.mem_cons_of_mem e h')

theorem madd_canon (hl : KeyLaws lt) [DecidableEq κ] {m : List (κ × CComplex)} (hm : Canon lt m)
    (k : κ) (c : CComplex) : Canon lt (madd lt k c m) := by
  induction m with
  | nil =>
    by_cases hc : c = 0
    · rw [madd, if_pos hc]
      exact ⟨List.Pairwise.nil, by simp⟩
    · rw [madd, if_neg hc]
      exact ⟨by simp, by simpa using hc⟩
  | cons e m ih =>
    have hpm := canon_tail hl hm
    simp only [madd]
    by_cases h1 : lt k e.1 = true
    · rw [if_pos h1]
      by_cases hc : c = 0
      · rwa [if_pos hc]
      · rw [if_neg hc]
        constructor
        · refine List.pairwise_cons.mpr ⟨?_, hm.1⟩
          intro e' he'
          rcases List.mem_cons.mp he' with rfl | hmem
          · exact h1
          · exact hl.lt_trans _ _ _ h1 (canon_below hl hm e' hmem)
        · intro e' he'
          rcases List.mem_cons.mp he' with rfl | hmem
          · exact hc
          · exact hm.2 e' hmem
    · rw [if_neg h1]
      by_cases h2 : k = e.1
      · rw [if_pos h2]
        by_cases hz : e.2 + c = 0
        · rwa [if_pos hz]
        · rw [if_neg hz]
          constructor
          · refine List.pairwise_cons.mpr ⟨?_, hpm.1⟩
            intro e' he'
            rw [h2]
            exact canon_below hl hm e' he'
          · intro e' he'
            rcases List.mem_cons.mp he' with rfl | hmem
            · exact hz
            · exact hpm.2 e' hmem
      · rw [if_neg h2]
        constructor
        · refine List.pairwise_cons.mpr ⟨?_, (ih hpm).1⟩
          intro e' he'
          rcases mem_madd hl he' with h' | h'
          · rw [h']
            exact hl.lt_of_ne h2 (by simpa using h1)
          · exact canon_below hl hm e' h'
        · intro e' he'
          rcases List.mem_cons.mp he' with rfl | hmem
          · exact hm.2 e' (List.mem_cons_self e' m)
          · exact (ih hpm).2 e' hmem

theorem sget_cons [DecidableEq κ] (e : κ × CComplex) (m : List (κ × CComplex)) (q : κ) :
    sget (e :: m) q = if q = e.1 then e.2 else sget m q := rfl

theorem sget_madd (hl : KeyLaws lt) [DecidableEq κ] {m : List (κ × CComplex)} (hm : Canon lt m)
    (k q : κ) (c : CComplex) :
    sget (madd lt k c m) q = sget m q + (if q = k then c else 0) := by
  induction m with
  | nil =>
    by_cases hc : c = 0
    · subst hc
      by_cases hq : q = k <;> simp [madd, sget, hq]
    · rw [madd, if_neg hc]
      by_cases hq : q = k <;> simp [sget, hq]
  | cons e m ih =>
    have hpm := canon_tail hl hm
    simp only [madd]
    by_cases h1 : lt k e.1 = true
    · rw [if_pos h1]
      have hbelow : ∀ e' ∈ e :: m, lt k e'.1 = true := by
        intro e' he'
        rcases List.mem_cons.mp he' with rfl | hmem
        · exact h1
        · exact hl.lt_trans _ _ _ h1 (canon_below hl hm e' hmem)
      by_cases hc : c = 0
      · rw [if_pos hc, hc]
        by_cases hq : q = k <;> simp [hq]
      · rw [if_neg hc]
        by_cases hq : q = k
        · have hT : sget (e :: m) q = 0 := by
            rw [hq]
            exact sget_eq_zero_of_below hl hbelow
          rw [hT, sget_cons]
          simp [hq]
        · rw [sget_cons, if_neg (by simpa using hq : ¬ q = (k, c).1), if_neg hq]
          ring
    · rw [if_neg h1]
      by_cases h2 : k = e.1
      · rw [if_pos h2]
        by_cases hz : e.2 + c = 0
        · rw [if_pos hz]
          by_cases hq : q = k
          · have hqe : q = e.1 := hq.trans h2
            have hTm : sget m q = 0 := by
              rw [hqe]
              exact sget_head_zero hl hm
            rw [hTm, if_pos hq, sget_cons, if_pos hqe, ← hz]
          · have hq2 : q ≠ e.1 := fun h => hq (h.trans h2.symm)
            rw [sget_cons, if_neg hq2, if_neg hq]
            ring
        · rw [if_neg hz]
          by_cases hq : q = k
          · have hqe : q = e.1 := hq.trans h2
            rw [sget_cons, if_pos hq, sget_cons, if_pos hqe, if_pos hq]
          · have hq2 : q ≠ e.1 := fun h => hq (h.trans h2.symm)
            rw [sget_cons, if_neg hq, sget_cons, if_neg hq2, if_neg hq]
            ring
      · rw [if_neg h2]
        by_cases hq : q = e.1
        · have hqk : q ≠ k := fun h => h2 (h.symm.trans hq)
          rw [sget_cons, if_pos hq, sget_cons, if_pos hq, if_neg hqk]
          ring
        · rw [sget_cons, if_neg hq, sget_cons, if_neg hq]
          exact ih hpm

theorem mem_mset (hl : KeyLaws lt) [DecidableEq κ] {m : List (κ × CComplex)} {k : κ} {c : CComplex}
    {e' : κ × CComplex} (h : e' ∈ mset lt k c m) : e'.1 = k ∨ e' ∈ m := by
  induction m with
  | nil =>
    by_cases hc : c = 0
    · rw [mset, if_pos hc] at h
      exact absurd h (List.not_mem_nil e')
    · rw [mset, if_neg hc] at h
      rw [List.mem_singleton.mp h]
      exact Or.inl rfl
  | cons e m ih =>
    simp only [mset] at h
    by_cases h1 : lt k e.1 = true
    · rw [if_pos h1] at h
      by_cases hc : c = 0
      · rw [if_pos hc] at h
        exact Or.inr h
      · rw [if_neg hc] at h
        rcases List.mem_cons.mp h with rfl | hm
        · exact Or.inl rfl
        · exact Or.inr hm
    · rw [if_neg h1] at h
      by_cases h2 : k = e.1
      · rw [if_pos h2] at h
        by_cases hz : c = 0
        · rw [if_pos hz] at h
          exact Or.inr (List.mem_cons_of_mem e h)
        · rw [if_neg hz] at h
          rcases List.mem_cons.mp h with rfl | hm
          · exact Or.inl rfl
          · exact Or.inr (List.mem_cons_of_mem e hm)
      · rw [if_neg h2] at h
        rcases List.mem_cons.mp h with rfl | hm
        · exact Or.inr (List.mem_cons_self e' m)
        · rcases ih hm with h' | h'
          · exact Or.inl h'
          · exact Or.inr (List.mem_cons_of_mem e h')

theorem mset_canon (hl : KeyLaws lt) [DecidableEq κ] {m : List (κ × CComplex)} (hm : Canon lt m)
    (k : κ) (c : CComplex) : Canon lt (mset lt k c m) := by
  induction m with
  | nil =>
    by_cases hc : c = 0
    · rw [mset, if_pos hc]
      exact ⟨List.Pairwise.nil, by simp⟩
    · rw [mset, if_neg hc]
      exact ⟨by simp, by simpa using hc⟩
  | cons e m ih =>
    have hpm := canon_tail hl hm
    simp only [mset]
    by_cases h1 : lt k e.1 = true
    · rw [if_pos h1]
      by_cases hc : c = 0
      · rwa [if_pos hc]
      · rw [if_neg hc]
        constructor
        · refine List.pairwise_cons.mpr ⟨?_, hm.1⟩
          intro e' he'
          rcases List.mem_cons.mp he' with rfl | hmem
          · exact h1
          · exact hl.lt_trans _ _ _ h1 (canon_below hl hm e' hmem)
        · intro e' he'
          rcases List.mem_cons.mp he' with rfl | hmem
          · exact hc
          · exact hm.2 e' hmem
    · rw [if_neg h1]
      by_cases h2 : k = e.1
      · rw [if_pos h2]
        by_cases hz : c = 0
        · rwa [if_pos hz]
        · rw [if_neg hz]
          constructor
          · refine List.pairwise_cons.mpr ⟨?_, hpm.1⟩
            intro e' he'
            rw [h2]
            exact canon_below hl hm e' he'
          · intro e' he'
            rcases List.mem_cons.mp he' with rfl | hmem
            · exact hz
            · exact hpm.2 e' hmem
      · rw [if_neg h2]
        constructor
        · refine List.pairwise_cons.mpr ⟨?_, (ih hpm).1⟩
          intro e' he'
          rcases mem_mset hl he' with h' | h'
          · rw [h']
            exact hl.lt_of_ne h2 (by simpa using h1)
          · exact canon_below hl hm e' h'
        · intro e' he'
          rcases List.mem_cons.mp he' with rfl | hmem
          · exact hm.2 e' (List.mem_cons_self e' m)
          · exact (ih hpm).2 e' hmem

theorem sget_mset (hl : KeyLaws lt) [DecidableEq κ] {m : List (κ × CComplex)} (hm : Canon lt m)
    (k q : κ) (c : CComplex) :
    sget (mset lt k c m) q = if q = k then c else sget m q := by
  induction m with
  | nil =>
    by_cases hc : c = 0
    · rw [mset, if_pos hc]
      by_cases hq : q = k <;> simp [sget, hq, hc]
    · rw [mset, if_neg hc]
      by_cases hq : q = k <;> simp [sget, hq]
  | cons e m ih =>
    have hpm := canon_tail hl hm
    simp only [mset]
    by_cases h1 : lt k e.1 = true
    · rw [if_pos h1]
      have hbelow : ∀ e' ∈ e :: m, lt k e'.1 = true := by
        intro e' he'
        rcases List.mem_cons.mp he' with rfl | hmem
        · exact h1
        · exact hl.lt_trans _ _ _ h1 (canon_below hl hm e' hmem)
      by_cases hc : c = 0
      · rw [if_pos hc]
        by_cases hq : q = k
        · rw [if_pos hq, hq, hc]
          exact sget_eq_zero_of_below hl hbelow
        · rw [if_neg hq]
      · rw [if_neg hc, sget_cons]
    · rw [if_neg h1]
      by_cases h2 : k = e.1
      · rw [if_pos h2]
        by_cases hz : c = 0
        · rw [if_pos hz]
          by_cases hq : q = k
          · rw [if_pos hq, hq, hz, h2]
            exact sget_head_zero hl hm
          · rw [if_neg hq, sget_cons, if_neg (fun h => hq (h.trans h2.symm))]
        · rw [if_neg hz, sget_cons]
          by_cases hq : q = k
          · rw [if_pos hq, if_pos hq]
          · rw [if_neg hq, if_neg hq, sget_cons, if_neg (fun h => hq (h.trans h2.symm))]
      · rw [if_neg h2, sget_cons]
        by_cases hq : q = e.1
        · have hqk : q ≠ k := fun h => h2 (h.symm.trans hq)
          rw [if_pos hq, if_neg hqk, sget_cons, if_pos hq]
        · rw [if_neg hq, ih hpm, sget_cons, if_neg hq]

theorem mplus_canon (hl : KeyLaws lt) [DecidableEq κ] {m acc : List (κ × CComplex)} (hacc : Canon lt acc) :
    Canon lt (mplus lt m acc) := by
  induction m with
  | nil => exact hacc
  | cons e m ih => exact madd_canon hl ih e.1 e.2

theorem sget_mplus (hl : KeyLaws lt) [DecidableEq κ] {m acc : List (κ × CComplex)} (hm : Canon lt m)
    (hacc : Canon lt acc) (q : κ) :
    sget (mplus lt m acc) q = sget m q + sget acc q := by
  induction m with
  | nil => simp [mplus, sget]
  | cons e m ih =>
    have hpm := canon_tail hl hm
    show sget (madd lt e.1 e.2 (mplus lt m acc)) q = _
    rw [sget_madd hl (mplus_canon hl hacc), ih hpm, sget_cons]
    by_cases hq : q = e.1
    · rw [if_pos hq, if_pos hq]
      have h0 : sget m q = 0 := by
        rw [hq]
        exact sget_head_zero hl hm
      rw [h0]
      ring
    · rw [if_neg hq, if_neg hq]
      ring

theorem mscale_cons (c : CComplex) (e : κ × CComplex) (m : List (κ × CComplex)) :
    mscale c (e :: m) = if c * e.2 = 0 then mscale c m else (e.1, c * e.2) :: mscale c m := by
  simp only [mscale, List.filterMap_cons]
  by_cases h0 : c * e.2 = 0
  · rw [if_pos h0, if_pos h0]
  · rw [if_neg h0, if_neg h0]

theorem fst_mem_of_mem_mscale {c : CComplex} {m : List (κ × CComplex)} {e' : κ × CComplex}
    (h : e' ∈ mscale c m) : ∃ e ∈ m, e'.1 = e.1 := by
  induction m with
  | nil => simp [mscale] at h
  | cons e m ih =>
    rw [mscale_cons] at h
    by_cases h0 : c * e.2 = 0
    · rw [if_pos h0] at h
      rcases ih h with ⟨f, hf, hfst⟩
      exact ⟨f, List.mem_cons_of_mem e hf, hfst⟩
    · rw [if_neg h0] at h
      rcases List.mem_cons.mp h with rfl | hm
      · exact ⟨e, List.mem_cons_self e m, rfl⟩
      · rcases ih hm with ⟨f, hf, hfst⟩
        exact ⟨f, List.mem_cons_of_mem e hf, hfst⟩

theorem mscale_canon (hl : KeyLaws lt) {m : List (κ × CComplex)} (hm : Canon lt m) (c : CComplex) :
    Canon lt (mscale c m) := by
  induction m with
  | nil => exact ⟨List.Pairwise.nil, by simp [mscale]⟩
  | cons e m ih =>
    have hpm := canon_tail hl hm
    rw [mscale_cons]
    by_cases h0 : c * e.2 = 0
    · rw [if_pos h0]
      exact ih hpm
    · rw [if_neg h0]
      constructor
      · refine List.pairwise_cons.mpr ⟨?_, (ih hpm).1⟩
        intro e' he'
        rcases fst_mem_of_mem_mscale he' with ⟨f, hf, hfst⟩
        rw [hfst]
        exact canon_below hl hm f hf
      · intro e' he'
        rcases List.mem_cons.mp he' with rfl | hmem
        · exact h0
        · exact (ih hpm).2 e' hmem

theorem sget_mscale (hl : KeyLaws lt) [DecidableEq κ] {m : List (κ × CComplex)} (hm : Canon lt m)
    (c : CComplex) (q : κ) : sget (mscale c m) q = c * sget m q := by
  induction m with
  | nil => simp [mscale, sget]
  | cons e m ih =>
    have hpm := canon_tail hl hm
    rw [mscale_cons, sget_cons]
    by_cases h0 : c * e.2 = 0
    · rw [if_pos h0]
      by_cases hq : q = e.1
      · rw [if_pos hq, ih hpm]
        have h1 : sget m q = 0 := by
          rw [hq]
          exact sget_head_zero hl hm
        rw [h1, h0, mul_zero]
      · rw [if_neg hq, ih hpm]
    · rw [if_neg h0, sget_cons]
      by_cases hq : q = e.1
      · rw [if_pos hq, if_pos hq]
      · rw [if_neg hq, if_neg hq, ih hpm]

theorem entrySum_nil (g : κ → CComplex) : entrySum g ([] : List (κ × CComplex)) = 0 := rfl

theorem entrySum_cons (g : κ → CComplex) (e : κ × CComplex) (m : List (κ × CComplex)) :
    entrySum g (e :: m) = e.2 * g e.1 + entrySum g m := by
  simp [entrySum]

theorem entrySum_madd (hl : KeyLaws lt) [DecidableEq κ] {m : List (κ × CComplex)} (hm : Canon lt m)
    (g : κ → CComplex) (k : κ) (c : CComplex) :
    entrySum g (madd lt k c m) = entrySum g m + c * g k := by
  induction m with
  | nil =>
    by_cases hc : c = 0
    · rw [madd, if_pos hc, hc]
      simp [entrySum]
    · rw [madd, if_neg hc]
      simp [entrySum]
  | cons e m ih =>
    have hpm := canon_tail hl hm
    simp only [madd]
    by_cases h1 : lt k e.1 = true
    · rw [if_pos h1]
      by_cases hc : c = 0
      · rw [if_pos hc, hc]
        simp
      · rw [if_neg hc, entrySum_cons, entrySum_cons]
        ring
    · rw [if_neg h1]
      by_cases h2 : k = e.1
      · rw [if_pos h2]
        by_cases hz : e.2 + c = 0
        · rw [if_pos hz, entrySum_cons, h2]
          rw [show e.2 * g e.1 + entrySum g m + c * g e.1
              = (e.2 + c) * g e.1 + entrySum g m from by ring, hz]
          simp
        · rw [if_neg hz, entrySum_cons, entrySum_cons, h2]
          ring
      · rw [if_neg h2, entrySum_cons, entrySum_cons, ih hpm]
        ring

theorem entrySum_mplus (hl : KeyLaws lt) [DecidableEq κ] {m acc : List (κ × CComplex)} (hacc : Canon lt acc)
    (g : κ → CComplex) :
    entrySum g (mplus lt m acc) = entrySum g m + entrySum g acc := by
  induction m with
  | nil => simp [mplus, entrySum]
  | cons e m ih =>
    show entrySum g (madd lt e.1 e.2 (mplus lt m acc)) = _
    rw [entrySum_madd hl (mplus_canon hl hacc), ih, entrySum_cons]
    ring

theorem entrySum_mscale (g : κ → CComplex) (c : CComplex) (m : List (κ × CComplex)) :
    entrySum g (mscale c m) = c * entrySum g m := by
  induction m with
  | nil => simp [mscale, entrySum]
  | cons e m ih =>
    rw [mscale_cons]
    by_cases h0 : c * e.2 = 0
    · rw [if_pos h0, ih, entrySum_cons, mul_add, ← mul_assoc, h0]
      simp
    · rw [if_neg h0, entrySum_cons, entrySum_cons, ih]
      ring

theorem liftVia_canon (hl : KeyLaws lt) {κ₁ : Type} [DecidableEq κ] (f : κ₁ → List (κ × CComplex))
    (m : List (κ₁ × CComplex)) : Canon lt (liftVia lt f m) := by
  induction m with
  | nil => exact ⟨List.Pairwise.nil, by simp [liftVia]⟩
  | cons e m ih => exact mplus_canon hl ih

theorem sget_liftVia (hl : KeyLaws lt) {κ₁ : Type} [DecidableEq κ] (f : κ₁ → List (κ × CComplex))
    (hf : ∀ p, Canon lt (f p)) (m : List (κ₁ × CComplex)) (q : κ) :
    sget (liftVia lt f m) q = entrySum (fun p => sget (f p) q) m := by
  induction m with
  | nil => simp [liftVia, entrySum, sget]
  | cons e m ih =>
    show sget (mplus lt (mscale e.2 (f e.1)) (liftVia lt f m)) q = _
    rw [sget_mplus hl (mscale_canon hl (hf e.1) e.2) (liftVia_canon hl f m),
      sget_mscale hl (hf e.1), ih, entrySum_cons]

theorem entrySum_liftVia (hl : KeyLaws lt) {κ₁ : Type} [DecidableEq κ] (f : κ₁ → List (κ × CComplex))
    (G : κ → CComplex) (m : List (κ₁ × CComplex)) :
    entrySum G (liftVia lt f m) = entrySum (fun p => entrySum G (f p)) m := by
  induction m with
  | nil => rfl
  | cons e m ih =>
    show entrySum G (mplus lt (mscale e.2 (f e.1)) (liftVia lt f m)) = _
    rw [entrySum_mplus hl (liftVia_canon hl f m), entrySum_mscale, ih, entrySum_cons]

theorem canon_ext (hl : KeyLaws lt) [DecidableEq κ] {m m' : List (κ × CComplex)} (hm : Canon lt m)
    (hm' : Canon lt m') (h : ∀ k, sget m k = sget m' k) : m = m' := by
  induction m generalizing m' with
  | nil =>
    cases m' with
    | nil => rfl
    | cons e' t' =>
      exfalso
      have h0 := h e'.1
      rw [sget_cons, if_pos rfl] at h0
      exact hm'.2 e' (List.mem_cons_self e' t') h0.symm
  | cons e m ih =>
    cases m' with
    | nil =>
      exfalso
      have h0 := h e.1
      rw [sget_cons, if_pos rfl] at h0
      exact hm.2 e (List.mem_cons_self e m) h0
    | cons e' t' =>
      have hkey : e.1 = e'.1 := by
        by_cases hlt : lt e.1 e'.1 = true
        · exfalso
          have hb : ∀ f ∈ e' :: t', lt e.1 f.1 = true := by
            intro f hf
            rcases List.mem_cons.mp hf with rfl | hmem
            · exact hlt
            · exact hl.lt_trans _ _ _ hlt (canon_below hl hm' f hmem)
          have h0 := h e.1
          rw [sget_cons, if_pos rfl, sget_eq_zero_of_below hl hb] at h0
          exact hm.2 e (List.mem_cons_self e m) h0
        · by_cases hlt' : lt e'.1 e.1 = true
          · exfalso
            have hb : ∀ f ∈ e :: m, lt e'.1 f.1 = true := by
              intro f hf
              rcases List.mem_cons.mp hf with rfl | hmem
              · exact hlt'
              · exact hl.lt_trans _ _ _ hlt' (canon_below hl hm f hmem)
            have h0 := h e'.1
            rw [sget_eq_zero_of_below hl hb, sget_cons, if_pos rfl] at h0
            exact hm'.2 e' (List.mem_cons_self e' t') h0.symm
          · exact hl.eq_of_not_lt e.1 e'.1 (by simpa using hlt) (by simpa using hlt')
      have hval : e.2 = e'.2 := by
        have h0 := h e.1
        rw [sget_cons, if_pos rfl, sget_cons, if_pos hkey] at h0
        exact h0
      have htail : m = t' := by
        apply ih (canon_tail hl hm) (canon_tail hl hm')
        intro k
        by_cases hk : k = e.1
        · rw [hk, sget_head_zero hl hm]
          have h0 : sget t' e'.1 = 0 := sget_head_zero hl hm'
          rw [← hkey] at h0
          exact h0.symm
        · have h0 := h k
          rw [sget_cons, if_neg hk, sget_cons, if_neg (hkey ▸ hk)] at h0
          exact h0
      calc e :: m = (e.1, e.2) :: m := by rw [Prod.mk.eta]
        _ = (e'.1, e'.2) :: t' := by rw [hkey, hval, htail]
        _ = e' :: t' := by rw [Prod.mk.eta]

theorem sget_ne_zero_iff_mem (hl : KeyLaws lt) [DecidableEq κ] {m : List (κ × CComplex)} (hm : Canon lt m)
    (k : κ) : sget m k ≠ 0 ↔ k ∈ keysOf m := by
  induction m with
  | nil => simp [sget, keysOf]
  | cons e m ih =>
    rw [sget_cons]
    by_cases hk : k = e.1
    · rw [if_pos hk]
      constructor
      · intro _
        rw [hk]
        simp [keysOf]
      · intro _
        exact hm.2 e (List.mem_cons_self e m)
    · rw [if_neg hk]
      rw [ih (canon_tail hl hm)]
      simp [keysOf, hk]

theorem entrySum_indicator (hl : KeyLaws lt) [DecidableEq κ] {m : List (κ × CComplex)} (hm : Canon lt m)
    (q : κ) : entrySum (fun p => if q = p then 1 else 0) m = sget m q := by
  induction m with
  | nil => rfl
  | cons e m ih =>
    rw [entrySum_cons, ih (canon_tail hl hm), sget_cons]
    by_cases hq : q = e.1
    · rw [if_pos hq, if_pos hq]
      have h0 : sget m q = 0 := by
        rw [hq]
        exact sget_head_zero hl hm
      rw [h0]
      ring
    · rw [if_neg hq, if_neg hq]
      ring

end GenericMap

/-! ### Theorems: lawfulness of the key orders -/

theorem natListLt_irrefl (l : List ℕ) : natListLt l l = false := by
  induction l with
  | nil => rfl
  | cons a t ih => simp [natListLt, ih]

theorem natListLt_cons_iff (a b : ℕ) (as bs : List ℕ) :
    natListLt (a :: as) (b :: bs) = true ↔ a < b ∨ (a = b ∧ natListLt as bs = true) := by
  simp only [natListLt]
  by_cases h1 : a < b
  · simp [h1]
  · by_cases h2 : b < a
    · rw [if_neg h1, if_pos h2]
      constructor
      · intro h
        simp at h
      · intro h
        rcases h with h | ⟨h, _⟩
        · exact absurd h h1
        · omega
    · have heq : a = b := by omega
      rw [if_neg h1, if_neg h2]
      subst heq
      simp

theorem natListLt_trans : ∀ a b c : List ℕ,
    natListLt a b = true → natListLt b c = true → natListLt a c = true
  | [], [], _, hab, _ => by simp [natListLt] at hab
  | [], _ :: _, [], _, hbc => by simp [natListLt] at hbc
  | [], _ :: _, _ :: _, _, _ => rfl
  | _ :: _, [], _, hab, _ => by simp [natListLt] at hab
  | _ :: _, _ :: _, [], _, hbc => by simp [natListLt] at hbc
  | a :: as, b :: bs, c :: cs, hab, hbc => by
    rcases (natListLt_cons_iff a b as bs).mp hab with h1 | ⟨rfl, h1⟩
    · rcases (natListLt_cons_iff b c bs cs).mp hbc with h2 | ⟨rfl, h2⟩
      · exact (natListLt_cons_iff a c as cs).mpr (Or.inl (Nat.lt_trans h1 h2))
      · exact (natListLt_cons_iff a b as cs).mpr (Or.inl h1)
    · rcases (natListLt_cons_iff a c bs cs).mp hbc with h2 | ⟨rfl, h2⟩
      · exact (natListLt_cons_iff a c as cs).mpr (Or.inl h2)
      · exact (natListLt_cons_iff a a as cs).mpr
          (Or.inr ⟨rfl, natListLt_trans as bs cs h1 h2⟩)

theorem natListLt_eq_of_not : ∀ a b : List ℕ,
    natListLt a b = false → natListLt b a = false → a = b
  | [], [], _, _ => rfl
  | [], _ :: _, hab, _ => by simp [natListLt] at hab
  | _ :: _, [], _, hba => by simp [natListLt] at hba
  | a :: as, b :: bs, hab, hba => by
    have hab' : ¬(a < b ∨ (a = b ∧ natListLt as bs = true)) := fun h => by
      rw [(natListLt_cons_iff a b as bs).mpr h] at hab
      simp at hab
    have hba' : ¬(b < a ∨ (b = a ∧ natListLt bs as = true)) := fun h => by
      rw [(natListLt_cons_iff b a bs as).mpr h] at hba
      simp at hba
    have h1 : ¬ a < b := fun h => hab' (Or.inl h)
    have h2 : ¬ b < a := fun h => hba' (Or.inl h)
    have heq : a = b := by omega
    subst heq
    have h3 : natListLt as bs = false := by
      cases h : natListLt as bs
      · rfl
      · exact absurd (Or.inr ⟨rfl, h⟩) hab'
    have h4 : natListLt bs as = false := by
      cases h : natListLt bs as
      · rfl
      · exact absurd (Or.inr ⟨rfl, h⟩) hba'
    rw [natListLt_eq_of_not as bs h3 h4]

theorem keyLaws_of_enc {κ : Type} (enc : κ → List ℕ) (hinj : ∀ a b, enc a = enc b → a = b) :
    KeyLaws (fun a b => natListLt (enc a) (enc b)) :=
  ⟨fun a => natListLt_irrefl (enc a),
   fun a b c => natListLt_trans (enc a) (enc b) (enc c),
   fun a b h1 h2 => hinj a b (natListLt_eq_of_not (enc a) (enc b) h1 h2)⟩

theorem pauliCode_inj : ∀ a b : Pauli, pauliCode a = pauliCode b → a = b := by
  intro a b h
  cases a <;> cases b <;> first
  | rfl
  | simp [pauliCode] at h

theorem dsymCode_inj : ∀ a b : DSym, dsymCode a = dsymCode b → a = b := by
  intro a b h
  cases a <;> cases b <;> first
  | rfl
  | simp [dsymCode] at h

theorem pmsymCode_inj : ∀ a b : PMSym, pmsymCode a = pmsymCode b → a = b := by
  intro a b h
  cases a <;> cases b <;> first
  | rfl
  | simp [pmsymCode] at h

theorem encSites_inj {σ : Type} (code : σ → ℕ)
    (hcode : ∀ a b, code a = code b → a = b) :
    ∀ p q : List (ℕ × σ), encSites code p = encSites code q → p = q
  | [], [], _ => rfl
  | [], _ :: _, h => by simp [encSites] at h
  | _ :: _, [], h => by simp [encSites] at h
  | e :: m, f :: t, h => by
    simp only [encSites, List.cons.injEq] at h
    obtain ⟨h1, h2, h3⟩ := h
    have hm := encSites_inj code hcode m t h3
    have he : e = f := by
      obtain ⟨i, s⟩ := e
      obtain ⟨j, u⟩ := f
      simp only at h1 h2
      rw [h1, hcode s u h2]
    rw [he, hm]

theorem encPair_inj {l r l' r' : List ℕ} (h : encPair l r = encPair l' r') :
    l = l' ∧ r = r' := by
  simp only [encPair, List.cons.injEq] at h
  exact List.append_inj h.2 h.1

theorem encFermion_inj : ∀ a b : FermionProduct, encFermion a = encFermion b → a = b := by
  intro a b h
  obtain ⟨hc, ha⟩ := encPair_inj h
  obtain ⟨ac, aa⟩ := a
  obtain ⟨bc, ba⟩ := b
  simp only at hc ha
  rw [hc, ha]

theorem encBoson_inj : ∀ a b : BosonProduct, encBoson a = encBoson b → a = b := by
  intro a b h
  obtain ⟨hc, ha⟩ := encPair_inj h
  obtain ⟨ac, aa⟩ := a
  obtain ⟨bc, ba⟩ := b
  simp only at hc ha
  rw [hc, ha]

theorem pauliKeyLaws : KeyLaws pauliLt :=
  keyLaws_of_enc (encSites pauliCode) (encSites_inj pauliCode pauliCode_inj)

theorem dpKeyLaws : KeyLaws dpLt :=
  keyLaws_of_enc (encSites dsymCode) (encSites_inj dsymCode dsymCode_inj)

theorem pmKeyLaws : KeyLaws pmLt :=
  keyLaws_of_enc (encSites pmsymCode) (encSites_inj pmsymCode pmsymCode_inj)

theorem fermKeyLaws : KeyLaws fermLt :=
  keyLaws_of_enc encFermion encFermion_inj

theorem dpPairKeyLaws : KeyLaws dpPairLt :=
  ⟨fun _ => natListLt_irrefl _,
   fun _ _ _ => natListLt_trans _ _ _,
   fun a b h1 h2 => by
     have h := natListLt_eq_of_not _ _ h1 h2
     obtain ⟨hl2, hr⟩ := encPair_inj h
     obtain ⟨al, ar⟩ := a
     obtain ⟨bl, br⟩ := b
     simp only at hl2 hr
     rw [encSites_inj dsymCode dsymCode_inj al bl hl2,
       encSites_inj dsymCode dsymCode_inj ar br hr]⟩

/-! ### Theorems: canonicity of the Jordan-Wigner constructions -/

theorem foldr_canon {κ : Type} {lt : κ → κ → Bool} (hl : KeyLaws lt) [DecidableEq κ]
    {β : Type} (F : β → List (κ × CComplex) → List (κ × CComplex))
    (hF : ∀ e acc, Canon lt acc → Canon lt (F e acc))
    {init : List (κ × CComplex)} (hinit : Canon lt init) :
    ∀ m : List β, Canon lt (m.foldr F init)
  | [] => hinit
  | e :: m => hF e (m.foldr F init) (foldr_canon hl F hF hinit m)

theorem canon_nil {κ : Type} (lt : κ → κ → Bool) : Canon lt ([] : List (κ × CComplex)) :=
  ⟨List.Pairwise.nil, by simp⟩

theorem ladderMulOp_canon (l : Ladder) (op : FermionSystem) :
    Canon fermLt (ladderMulOp l op) := by
  unfold ladderMulOp
  refine foldr_canon fermKeyLaws _ ?_ (canon_nil fermLt) op
  intro e acc hacc
  exact foldr_canon fermKeyLaws _
    (fun st a ha => madd_canon fermKeyLaws ha st.2 (st.1 * e.2)) hacc _

theorem termMulOp_canon (t : FermionProduct) {op : FermionSystem} (hop : Canon fermLt op) :
    Canon fermLt (termMulOp t op) := by
  unfold termMulOp
  refine foldr_canon fermKeyLaws _ ?_ hop (lettersOf t)
  intro l acc _
  exact ladderMulOp_canon l acc

theorem opMulOp_canon (p q : FermionSystem) : Canon fermLt (opMulOp p q) :=
  liftVia_canon fermKeyLaws _ p

theorem fermOne_canon : Canon fermLt fermOne := by
  constructor
  · simp [fermOne]
  · intro e he
    simp [fermOne] at he
    rw [he]
    decide

theorem spinOne_canon : Canon pauliLt spinOne := by
  constructor
  · simp [spinOne]
  · intro e he
    simp [spinOne] at he
    rw [he]
    decide

theorem jwZnumber_canon (i : ℕ) : Canon fermLt (jwZnumber i) :=
  madd_canon fermKeyLaws (madd_canon fermKeyLaws (canon_nil fermLt) _ _) _ _

theorem foldl_opMulZ_canon : ∀ (l : List ℕ) (acc : FermionSystem), Canon fermLt acc →
    Canon fermLt (l.foldl (fun acc k => opMulOp acc (jwZnumber k)) acc)
  | [], _, h => h
  | k :: t, acc, _ => by
    rw [List.foldl_cons]
    exact foldl_opMulZ_canon t _ (opMulOp_canon _ _)

theorem zString_canon (i : ℕ) : Canon fermLt (zString i) := by
  unfold zString
  exact foldl_opMulZ_canon _ _ fermOne_canon

theorem jwSite_canon (i : ℕ) (s : Pauli) : Canon fermLt (jwSite i s) := by
  cases s with
  | X => exact opMulOp_canon _ _
  | Y => exact opMulOp_canon _ _
  | Z => exact jwZnumber_canon i

theorem foldl_opMul_canon {σ : Type} (f : ℕ × σ → FermionSystem) :
    ∀ (l : List (ℕ × σ)) (acc : FermionSystem), Canon fermLt acc →
      Canon fermLt (l.foldl (fun acc e => opMulOp acc (f e)) acc)
  | [], _, h => h
  | e :: t, acc, _ => by
    rw [List.foldl_cons]
    exact foldl_opMul_canon f t _ (opMulOp_canon _ _)

theorem jwPauliProduct_canon (p : PauliProduct) : Canon fermLt (jwPauliProduct p) := by
  unfold jwPauliProduct
  exact foldl_opMul_canon (fun e => jwSite e.1 e.2) p fermOne fermOne_canon

theorem spinTermMulOp_canon (p : PauliProduct) (op : SpinSystem) :
    Canon pauliLt (spinTermMulOp p op) := by
  unfold spinTermMulOp
  refine foldr_canon pauliKeyLaws _ ?_ (canon_nil pauliLt) op
  intro e acc hacc
  exact madd_canon pauliKeyLaws hacc _ _

theorem spinOpMul_canon (a b : SpinSystem) : Canon pauliLt (spinOpMul a b) :=
  liftVia_canon pauliKeyLaws _ a

theorem fsFermionProduct_canon (t : FermionProduct) : Canon pauliLt (fsFermionProduct t) := by
  unfold fsFermionProduct
  refine foldr_canon pauliKeyLaws _ ?_ spinOne_canon (lettersOf t)
  intro l acc _
  exact spinOpMul_canon _ _

theorem spinToFermion_canon (O : SpinSystem) : Canon fermLt (spinToFermion O) :=
  liftVia_canon fermKeyLaws _ O

theorem fermionToSpin_canon (O : FermionSystem) : Canon pauliLt (fermionToSpin O) :=
  liftVia_canon pauliKeyLaws _ O

/-! ### Theorems: further container facts -/

theorem entrySum_congr {κ : Type} {g g' : κ → CComplex} :
    ∀ {m : List (κ × CComplex)}, (∀ e ∈ m, g e.1 = g' e.1) → entrySum g m = entrySum g' m := by
  intro m
  induction m with
  | nil => intro _; rfl
  | cons e t ih =>
    intro h
    rw [entrySum_cons, entrySum_cons, h e (List.mem_cons_self e t),
      ih fun e' he' => h e' (List.mem_cons_of_mem e he')]

theorem sget_of_mem {κ : Type} {lt : κ → κ → Bool} (hl : KeyLaws lt) [DecidableEq κ]
    {m : List (κ × CComplex)} (hm : Canon lt m) {e : κ × CComplex} (he : e ∈ m) :
    sget m e.1 = e.2 := by
  induction m with
  | nil => exact absurd he (List.not_mem_nil e)
  | cons f t ih =>
    rcases List.mem_cons.mp he with rfl | hmem
    · rw [sget_cons, if_pos rfl]
    · have hne : e.1 ≠ f.1 :=
        fun h => hl.ne_of_lt (canon_below hl hm e hmem) h.symm
      rw [sget_cons, if_neg hne]
      exact ih (canon_tail hl hm) hmem

/-! ### Theorems: the claims about the Jordan-Wigner transform -/

/-- Claim C3: applying the Jordan-Wigner transform to the spin product with
the single symbol Z at site 1 produces exactly the 2-term fermionic operator
with coefficient +1 on the empty product and −2 on the product with creation
index 1 and annihilation index 1. -/
theorem claim_c3_z_at_one_expansion :
    jwPauliProduct [(1, Pauli.Z)]
      = [((⟨[], []⟩ : FermionProduct), (1 : CComplex)), (⟨[1], [1]⟩, (-2 : CComplex))] := by
  decide

/-- Claim C2: the spin → fermion Jordan-Wigner transform of the sum of two
spin operators is the sum of the transforms (linearity of the lifted
transform, with exact cancellation through the pruning `add`). -/
theorem claim_c2_linearity (O1 O2 : SpinSystem)
    (h1 : Canon pauliLt O1) (h2 : Canon pauliLt O2) :
    spinToFermion (mplus pauliLt O1 O2)
      = mplus fermLt (spinToFermion O1) (spinToFermion O2) := by
  refine canon_ext fermKeyLaws (spinToFermion_canon _)
    (mplus_canon fermKeyLaws (spinToFermion_canon _)) ?_
  intro q
  rw [sget_mplus fermKeyLaws (spinToFermion_canon O1) (spinToFermion_canon O2)]
  unfold spinToFermion
  rw [sget_liftVia fermKeyLaws _ jwPauliProduct_canon,
    sget_liftVia fermKeyLaws _ jwPauliProduct_canon,
    sget_liftVia fermKeyLaws _ jwPauliProduct_canon,
    entrySum_mplus pauliKeyLaws h2]

/-- A closed check that `claim_c2_linearity` applies: a concrete instance. -/
theorem claim_c2_linearity_witness :
    spinToFermion (mplus pauliLt [([(0, Pauli.X)], (1 : CComplex))]
        [([(1, Pauli.Z)], (1 : CComplex))])
      = mplus fermLt (spinToFermion [([(0, Pauli.X)], (1 : CComplex))])
          (spinToFermion [([(1, Pauli.Z)], (1 : CComplex))]) :=
  claim_c2_linearity [([(0, Pauli.X)], 1)] [([(1, Pauli.Z)], 1)] (by decide) (by decide)

theorem small_pauli_mem (p : PauliProduct) (hc : SiteCanon p) (hs : ∀ s ∈ p, s.1 < 2) :
    p ∈ ([[], [(0, Pauli.X)], [(0, Pauli.Y)], [(0, Pauli.Z)],
      [(1, Pauli.X)], [(1, Pauli.Y)], [(1, Pauli.Z)],
      [(0, Pauli.X), (1, Pauli.X)], [(0, Pauli.X), (1, Pauli.Y)], [(0, Pauli.X), (1, Pauli.Z)],
      [(0, Pauli.Y), (1, Pauli.X)], [(0, Pauli.Y), (1, Pauli.Y)], [(0, Pauli.Y), (1, Pauli.Z)],
      [(0, Pauli.Z), (1, Pauli.X)], [(0, Pauli.Z), (1, Pauli.Y)], [(0, Pauli.Z), (1, Pauli.Z)]]
      : List PauliProduct) := by
  match p with
  | [] => simp
  | [(i, s)] =>
    have hi : i < 2 := hs (i, s) (by simp)
    have : i = 0 ∨ i = 1 := by omega
    rcases this with rfl | rfl <;> cases s <;> simp
  | (i, s) :: (j, t) :: rest =>
    have hij : i < j := (List.pairwise_cons.mp hc).1 (j, t) (by simp)
    have hj : j < 2 := hs (j, t) (by simp)
    have hi0 : i = 0 := by omega
    have hj1 : j = 1 := by omega
    cases rest with
    | nil =>
      subst hi0
      subst hj1
      cases s <;> cases t <;> simp
    | cons r rest2 =>
      exfalso
      have hr : j < r.1 :=
        (List.pairwise_cons.mp (List.pairwise_cons.mp hc).2).1 r (by simp)
      have := hs r (by simp)
      omega

theorem jw_roundtrip_small :
    ∀ p ∈ ([[], [(0, Pauli.X)], [(0, Pauli.Y)], [(0, Pauli.Z)],
      [(1, Pauli.X)], [(1, Pauli.Y)], [(1, Pauli.Z)],
      [(0, Pauli.X), (1, Pauli.X)], [(0, Pauli.X), (1, Pauli.Y)], [(0, Pauli.X), (1, Pauli.Z)],
      [(0, Pauli.Y), (1, Pauli.X)], [(0, Pauli.Y), (1, Pauli.Y)], [(0, Pauli.Y), (1, Pauli.Z)],
      [(0, Pauli.Z), (1, Pauli.X)], [(0, Pauli.Z), (1, Pauli.Y)], [(0, Pauli.Z), (1, Pauli.Z)]]
      : List PauliProduct),
      fermionToSpin (jwPauliProduct p) = [(p, (1 : CComplex))] := by
  decide

/-- Claim C1: for every spin operator supported on the small site set
`{0, 1}`, applying the spin → fermion Jordan-Wigner transform and then the
fermion → spin transform yields an operator structurally equal to the
original (the transform is a lossless change of basis). -/
theorem claim_c1_round_trip (O : SpinSystem) (hc : Canon pauliLt O)
    (hsmall : ∀ e ∈ O, SiteCanon e.1 ∧ ∀ s ∈ e.1, s.1 < 2) :
    fermionToSpin (spinToFermion O) = O := by
  refine canon_ext pauliKeyLaws (fermionToSpin_canon _) hc ?_
  intro q
  unfold fermionToSpin spinToFermion
  rw [sget_liftVia pauliKeyLaws _ fsFermionProduct_canon,
    entrySum_liftVia fermKeyLaws _ _ O, ← entrySum_indicator pauliKeyLaws hc q]
  refine entrySum_congr ?_
  intro e he
  dsimp only
  have h1 : sget (fermionToSpin (jwPauliProduct e.1)) q
      = entrySum (fun t => sget (fsFermionProduct t) q) (jwPauliProduct e.1) :=
    sget_liftVia pauliKeyLaws _ fsFermionProduct_canon _ q
  rw [← h1, jw_roundtrip_small e.1
    (small_pauli_mem e.1 (hsmall e he).1 (hsmall e he).2), sget_cons]
  by_cases hq : q = e.1
  · rw [if_pos hq, if_pos hq]
  · rw [if_neg hq, if_neg hq]
    rfl

/-- A closed check that `claim_c1_round_trip` applies: a concrete two-term
spin operator on sites 0 and 1. -/
theorem claim_c1_round_trip_witness :
    fermionToSpin (spinToFermion
        [([(0, Pauli.X), (1, Pauli.Y)], dy 2 1 0), ([(1, Pauli.Z)], dy 0 3 1)])
      = [([(0, Pauli.X), (1, Pauli.Y)], dy 2 1 0), ([(1, Pauli.Z)], dy 0 3 1)] :=
  claim_c1_round_trip
    [([(0, Pauli.X), (1, Pauli.Y)], dy 2 1 0), ([(1, Pauli.Z)], dy 0 3 1)]
    (by decide) (by decide)


/-! ### Theorems: the printed form parses back (string round trips) -/

theorem digitVal_digitChar : ∀ d < 10, digitVal (Nat.digitChar d) = d := by decide

theorem digitChar_isDigit : ∀ d < 10, (Nat.digitChar d).isDigit = true := by decide

theorem natChars_all_digits (n : ℕ) : ∀ c ∈ natChars n, c.isDigit = true := by
  intro c hc
  unfold natChars at hc
  by_cases h : n = 0
  · rw [if_pos h] at hc
    simp only [List.mem_singleton] at hc
    subst hc
    decide
  · rw [if_neg h] at hc
    rw [List.mem_reverse, List.mem_map] at hc
    obtain ⟨d, hd, rfl⟩ := hc
    exact digitChar_isDigit d (Nat.digits_lt_base (by norm_num) hd)

theorem natChars_ne_nil (n : ℕ) : natChars n ≠ [] := by
  unfold natChars
  by_cases h : n = 0
  · rw [if_pos h]
    simp
  · rw [if_neg h]
    simp only [ne_eq, List.reverse_eq_nil_iff, List.map_eq_nil_iff]
    exact Nat.digits_ne_nil_iff_ne_zero.mpr h

theorem charsToNat_natChars (n : ℕ) : charsToNat (natChars n) = n := by
  by_cases h : n = 0
  · subst h
    decide
  · unfold charsToNat natChars
    rw [if_neg h, List.map_reverse, List.reverse_reverse, List.map_map]
    have hid : (Nat.digits 10 n).map (digitVal ∘ Nat.digitChar) = Nat.digits 10 n := by
      conv_rhs => rw [show Nat.digits 10 n = (Nat.digits 10 n).map id from (List.map_id _).symm]
      apply List.map_congr_left
      intro d hd
      exact digitVal_digitChar d (Nat.digits_lt_base (by norm_num) hd)
    rw [hid, Nat.ofDigits_digits]

theorem takeDigits_append :
    ∀ (ds rest : List Char), (∀ c ∈ ds, c.isDigit = true) →
      (∀ c, rest.head? = some c → c.isDigit = false) →
      takeDigits (ds ++ rest) = (ds, rest)
  | [], rest, _, hr => by
    cases rest with
    | nil => rfl
    | cons c r =>
      have hcd := hr c rfl
      rw [List.nil_append]
      unfold takeDigits
      rw [if_neg (by simp [hcd])]
  | d :: ds, rest, hd, hr => by
    rw [List.cons_append]
    unfold takeDigits
    rw [if_pos (hd d (List.mem_cons_self d ds))]
    simp only
    rw [takeDigits_append ds rest (fun c hc => hd c (List.mem_cons_of_mem d hc)) hr]

theorem parseNat_natChars (n : ℕ) (rest : List Char)
    (hr : ∀ c, rest.head? = some c → c.isDigit = false) :
    parseNat (natChars n ++ rest) = some (n, rest) := by
  unfold parseNat
  simp only [takeDigits_append (natChars n) rest (natChars_all_digits n) hr]
  have hne : (natChars n).isEmpty = false := by
    cases h : natChars n with
    | nil => exact absurd h (natChars_ne_nil n)
    | cons a t => rfl
  rw [hne]
  simp only [Bool.false_eq_true, if_false, charsToNat_natChars]

theorem parsePauliSym_printed (s : Pauli) (r : List Char) :
    parsePauliSym (pauliChars s ++ r) = some (s, r) := by
  cases s <;> rfl

theorem parseDSym_printed (s : DSym) (r : List Char) :
    parseDSym (dsymChars s ++ r) = some (s, r) := by
  cases s <;> rfl

theorem parsePMSym_printed (s : PMSym) (r : List Char) :
    parsePMSym (pmsymChars s ++ r) = some (s, r) := by
  cases s <;> rfl

theorem pauliChars_head_not_digit (s : Pauli) (r : List Char) (c : Char)
    (h : (pauliChars s ++ r).head? = some c) : c.isDigit = false := by
  cases s <;> (simp only [pauliChars, List.cons_append, List.head?_cons,
    Option.some.injEq] at h; subst h; decide)

theorem dsymChars_head_not_digit (s : DSym) (r : List Char) (c : Char)
    (h : (dsymChars s ++ r).head? = some c) : c.isDigit = false := by
  cases s <;> (simp only [dsymChars, List.cons_append, List.head?_cons,
    Option.some.injEq] at h; subst h; decide)

theorem pmsymChars_head_not_digit (s : PMSym) (r : List Char) (c : Char)
    (h : (pmsymChars s ++ r).head? = some c) : c.isDigit = false := by
  cases s <;> (simp only [pmsymChars, List.cons_append, List.head?_cons,
    Option.some.injEq] at h; subst h; decide)

theorem parseSites_printed {σ : Type} (symChars : σ → List Char)
    (symParse : List Char → Option (σ × List Char))
    (hsym : ∀ s r, symParse (symChars s ++ r) = some (s, r))
    (hhead : ∀ s r c, (symChars s ++ r).head? = some c → c.isDigit = false) :
    ∀ (p : List (ℕ × σ)) (fuel : ℕ), p.length ≤ fuel →
      parseSites symParse fuel (printSites symChars p) = some p
  | [], fuel, _ => by cases fuel <;> rfl
  | (i, s) :: t, fuel, hf => by
    obtain ⟨f, rfl⟩ : ∃ f, fuel = f + 1 :=
      ⟨fuel - 1, by simp only [List.length_cons] at hf; omega⟩
    have hle : t.length ≤ f := by simp only [List.length_cons] at hf; omega
    have hpn : parseNat (natChars i ++ (symChars s ++ printSites symChars t))
        = some (i, symChars s ++ printSites symChars t) :=
      parseNat_natChars i _ (fun c hc => hhead s _ c hc)
    obtain ⟨c0, cs, hn⟩ := List.exists_cons_of_ne_nil (natChars_ne_nil i)
    rw [hn, List.cons_append] at hpn
    show parseSites symParse (f + 1)
      (natChars i ++ symChars s ++ printSites symChars t) = some ((i, s) :: t)
    rw [List.append_assoc, hn, List.cons_append]
    simp only [parseSites]
    rw [hpn]
    simp only
    rw [hsym s (printSites symChars t)]
    simp only
    rw [parseSites_printed symChars symParse hsym hhead t f hle]

theorem printSites_length_ge {σ : Type} (symChars : σ → List Char) :
    ∀ p : List (ℕ × σ), p.length ≤ (printSites symChars p).length
  | [] => Nat.le_refl 0
  | e :: t => by
    have h1 : 1 ≤ (natChars e.1).length :=
      List.length_pos.mpr (natChars_ne_nil e.1)
    have h2 := printSites_length_ge symChars t
    show t.length + 1 ≤ (natChars e.1 ++ symChars e.2 ++ printSites symChars t).length
    simp only [List.length_append]
    omega

theorem pauli_fromStr_toStr (p : PauliProduct) (hs : sitesSorted p = true) :
    PauliProduct.fromStr (PauliProduct.toStr p) = .ok p := by
  unfold PauliProduct.fromStr PauliProduct.toStr
  show (match parseSites parsePauliSym ((printSites pauliChars p).length + 1)
      (printSites pauliChars p) with
    | some q => if sitesSorted q then Except.ok q else Except.error StruqtureError.ParseError
    | none => Except.error StruqtureError.ParseError) = Except.ok p
  rw [parseSites_printed pauliChars parsePauliSym parsePauliSym_printed
    pauliChars_head_not_digit p _ (Nat.le_succ_of_le (printSites_length_ge _ p))]
  simp only [hs, if_true]

theorem deco_fromStr_toStr (p : DecoherenceProduct) (hs : sitesSorted p = true) :
    DecoherenceProduct.fromStr (DecoherenceProduct.toStr p) = .ok p := by
  unfold DecoherenceProduct.fromStr DecoherenceProduct.toStr
  show (match parseSites parseDSym ((printSites dsymChars p).length + 1)
      (printSites dsymChars p) with
    | some q => if sitesSorted q then Except.ok q else Except.error StruqtureError.ParseError
    | none => Except.error StruqtureError.ParseError) = Except.ok p
  rw [parseSites_printed dsymChars parseDSym parseDSym_printed
    dsymChars_head_not_digit p _ (Nat.le_succ_of_le (printSites_length_ge _ p))]
  simp only [hs, if_true]

theorem pm_fromStr_toStr (p : PlusMinusProduct) (hs : sitesSorted p = true) :
    PlusMinusProduct.fromStr (PlusMinusProduct.toStr p) = .ok p := by
  unfold PlusMinusProduct.fromStr PlusMinusProduct.toStr
  show (match parseSites parsePMSym ((printSites pmsymChars p).length + 1)
      (printSites pmsymChars p) with
    | some q => if sitesSorted q then Except.ok q else Except.error StruqtureError.ParseError
    | none => Except.error StruqtureError.ParseError) = Except.ok p
  rw [parseSites_printed pmsymChars parsePMSym parsePMSym_printed
    pmsymChars_head_not_digit p _ (Nat.le_succ_of_le (printSites_length_ge _ p))]
  simp only [hs, if_true]

theorem printTagged_length_ge (tag : Char) :
    ∀ l : List ℕ, l.length ≤ (printTagged tag l).length
  | [] => Nat.le_refl 0
  | i :: t => by
    have h2 := printTagged_length_ge tag t
    show t.length + 1 ≤ (tag :: (natChars i ++ printTagged tag t)).length
    simp only [List.length_cons, List.length_append]
    omega

theorem parseTagged_printed (tag : Char) (htag : tag.isDigit = false) :
    ∀ (l : List ℕ) (fuel : ℕ) (rest : List Char), l.length < fuel →
      (∀ c, rest.head? = some c → c.isDigit = false ∧ c ≠ tag) →
      parseTagged tag fuel (printTagged tag l ++ rest) = some (l, rest)
  | [], fuel, rest, hf, hr => by
    obtain ⟨f, rfl⟩ : ∃ f, fuel = f + 1 := ⟨fuel - 1, by omega⟩
    simp only [printTagged, List.nil_append]
    cases rest with
    | nil => rfl
    | cons c r =>
      simp only [parseTagged]
      rw [if_neg (hr c rfl).2]
  | i :: t, fuel, rest, hf, hr => by
    obtain ⟨f, rfl⟩ : ∃ f, fuel = f + 1 :=
      ⟨fuel - 1, by simp only [List.length_cons] at hf; omega⟩
    have hle : t.length < f := by simp only [List.length_cons] at hf; omega
    have hhead : ∀ c, (printTagged tag t ++ rest).head? = some c → c.isDigit = false := by
      cases t with
      | nil =>
        intro c hc
        simp only [printTagged, List.nil_append] at hc
        exact (hr c hc).1
      | cons j u =>
        intro c hc
        simp only [printTagged, List.cons_append, List.head?_cons,
          Option.some.injEq] at hc
        subst hc
        exact htag
    have hpn : parseNat (natChars i ++ (printTagged tag t ++ rest))
        = some (i, printTagged tag t ++ rest) := parseNat_natChars i _ hhead
    show parseTagged tag (f + 1) ((tag :: (natChars i ++ printTagged tag t)) ++ rest)
      = some (i :: t, rest)
    rw [List.cons_append, List.append_assoc]
    simp only [parseTagged, if_pos rfl]
    rw [hpn]
    simp only
    rw [parseTagged_printed tag htag t f rest hle hr]
    simp only [if_true]

theorem parseLadder_printed (cs ans : List ℕ) :
    parseLadder (printLadder cs ans) = some (cs, ans) := by
  unfold parseLadder printLadder
  have hr1 : ∀ c, (printTagged 'a' ans).head? = some c → c.isDigit = false ∧ c ≠ 'c' := by
    cases ans with
    | nil => intro c hc; exact absurd hc (by simp [printTagged])
    | cons j u =>
      intro c hc
      simp only [printTagged, List.head?_cons, Option.some.injEq] at hc
      subst hc
      exact ⟨by decide, by decide⟩
  have hf1 : cs.length < (printTagged 'c' cs ++ printTagged 'a' ans).length + 1 := by
    have := printTagged_length_ge 'c' cs
    simp only [List.length_append]
    omega
  rw [parseTagged_printed 'c' (by decide) cs _ (printTagged 'a' ans) hf1 hr1]
  have h2 : printTagged 'a' ans ++ ([] : List Char) = printTagged 'a' ans :=
    List.append_nil _
  have hf2 : ans.length < (printTagged 'a' ans).length + 1 := by
    have := printTagged_length_ge 'a' ans
    omega
  have h3 := parseTagged_printed 'a' (by decide) ans ((printTagged 'a' ans).length + 1)
    [] hf2 (fun c hc => absurd hc (by simp))
  rw [h2] at h3
  show (match parseTagged 'a' ((printTagged 'a' ans).length + 1) (printTagged 'a' ans) with
    | none => none
    | some (ans2, rest2) => if rest2.isEmpty = true then some (cs, ans2) else none)
    = some (cs, ans)
  rw [h3]
  rfl

theorem fermion_fromStr_toStr (t : FermionProduct) (hc : idxSorted t.creators = true)
    (ha : idxSorted t.annihilators = true) :
    FermionProduct.fromStr (FermionProduct.toStr t) = .ok t := by
  unfold FermionProduct.fromStr FermionProduct.toStr
  show (match parseLadder (printLadder t.creators t.annihilators) with
    | some (cs, ans) =>
      if idxSorted cs && idxSorted ans then Except.ok (⟨cs, ans⟩ : FermionProduct)
      else Except.error StruqtureError.ParseError
    | none => Except.error StruqtureError.ParseError) = Except.ok t
  rw [parseLadder_printed]
  simp only [hc, ha, Bool.and_self, if_true]

theorem boson_fromStr_toStr (t : BosonProduct) (hc : idxSorted t.creators = true)
    (ha : idxSorted t.annihilators = true) :
    BosonProduct.fromStr (BosonProduct.toStr t) = .ok t := by
  unfold BosonProduct.fromStr BosonProduct.toStr
  show (match parseLadder (printLadder t.creators t.annihilators) with
    | some (cs, ans) =>
      if idxSorted cs && idxSorted ans then Except.ok (⟨cs, ans⟩ : BosonProduct)
      else Except.error StruqtureError.ParseError
    | none => Except.error StruqtureError.ParseError) = Except.ok t
  rw [parseLadder_printed]
  simp only [hc, ha, Bool.and_self, if_true]

theorem hermFermion_fromStr_toStr (h : HermitianFermionProduct)
    (hc : idxSorted h.prod.creators = true) (ha : idxSorted h.prod.annihilators = true)
    (hrep : fermLt h.prod.hconj h.prod = false) :
    HermitianFermionProduct.fromStr (HermitianFermionProduct.toStr h) = .ok h := by
  unfold HermitianFermionProduct.fromStr HermitianFermionProduct.toStr
  rw [fermion_fromStr_toStr h.prod hc ha]
  simp only [hrep, Bool.false_eq_true, if_false]

theorem takeUntilColon_append :
    ∀ (inner rest : List Char), ':' ∉ inner →
      takeUntilColon (inner ++ ':' :: rest) = (inner, some rest)
  | [], rest, _ => by
    rw [List.nil_append]
    unfold takeUntilColon
    rw [if_pos rfl]
  | c :: inner, rest, h => by
    have hc : ¬(c = ':') := fun he => h (by rw [he]; exact List.mem_cons_self _ _)
    rw [List.cons_append]
    unfold takeUntilColon
    rw [if_neg hc]
    simp only
    rw [takeUntilColon_append inner rest (fun hm => h (List.mem_cons_of_mem c hm))]

theorem slotFold_length (tag : Char) :
    ∀ (slots : List (List Char)) (rest : List Char),
      slots.length + rest.length ≤ ((slots.map (printSlot tag)).foldr (· ++ ·) rest).length
  | [], rest => by simp
  | s :: t, rest => by
    have h2 := slotFold_length tag t rest
    show t.length + 1 + rest.length
      ≤ ((tag :: (s ++ [':'])) ++ (t.map (printSlot tag)).foldr (· ++ ·) rest).length
    simp only [List.length_cons, List.length_append, List.length_singleton]
    omega

theorem slotFold_head (tag : Char) :
    ∀ (slots : List (List Char)) (rest : List Char) (c : Char),
      ((slots.map (printSlot tag)).foldr (· ++ ·) rest).head? = some c →
      c = tag ∨ rest.head? = some c
  | [], _, _, h => Or.inr h
  | s :: t, rest, c, h => by
    left
    simp only [List.map_cons, List.foldr_cons, printSlot, List.cons_append,
      List.head?_cons, Option.some.injEq] at h
    exact h.symm

theorem parseSlots_printed (tag : Char) :
    ∀ (slots : List (List Char)) (fuel : ℕ) (rest : List Char),
      slots.length < fuel →
      (∀ inner ∈ slots, ':' ∉ inner) →
      (∀ c, rest.head? = some c → ¬(c = tag)) →
      parseSlots tag fuel ((slots.map (printSlot tag)).foldr (· ++ ·) rest)
        = some (slots, rest)
  | [], fuel, rest, hf, _, hr => by
    obtain ⟨f, rfl⟩ : ∃ f, fuel = f + 1 := ⟨fuel - 1, by omega⟩
    show parseSlots tag (f + 1) rest = some ([], rest)
    cases rest with
    | nil => rfl
    | cons c r =>
      simp only [parseSlots]
      rw [if_neg (hr c rfl)]
  | s :: t, fuel, rest, hf, hin, hr => by
    obtain ⟨f, rfl⟩ : ∃ f, fuel = f + 1 :=
      ⟨fuel - 1, by simp only [List.length_cons] at hf; omega⟩
    have hle : t.length < f := by simp only [List.length_cons] at hf; omega
    show parseSlots tag (f + 1)
      ((tag :: (s ++ [':'])) ++ (t.map (printSlot tag)).foldr (· ++ ·) rest)
      = some (s :: t, rest)
    rw [List.cons_append, List.append_assoc]
    have hcol : [':'] ++ (t.map (printSlot tag)).foldr (· ++ ·) rest
        = ':' :: (t.map (printSlot tag)).foldr (· ++ ·) rest := rfl
    rw [hcol]
    simp only [parseSlots, if_pos rfl]
    rw [takeUntilColon_append s _ (hin s (List.mem_cons_self s t))]
    simp only
    rw [parseSlots_printed tag t f rest hle
      (fun i hi => hin i (List.mem_cons_of_mem s hi)) hr]
    simp only [if_true]

theorem mapSlots_map {α : Type} (f : List Char → Except StruqtureError α)
    (g : α → List Char) :
    ∀ (xs : List α), (∀ x ∈ xs, f (g x) = .ok x) → mapSlots f (xs.map g) = .ok xs
  | [], _ => rfl
  | x :: t, h => by
    rw [List.map_cons]
    show (match f (g x), mapSlots f (t.map g) with
      | .ok a, .ok l => Except.ok (a :: l)
      | .error e, _ => Except.error e
      | _, .error e => Except.error e) = Except.ok (x :: t)
    rw [h x (List.mem_cons_self x t),
      mapSlots_map f g t (fun y hy => h y (List.mem_cons_of_mem x hy))]

theorem printSites_no_colon {σ : Type} (symChars : σ → List Char)
    (hs : ∀ s, ':' ∉ symChars s) : ∀ p : List (ℕ × σ), ':' ∉ printSites symChars p
  | [] => List.not_mem_nil _
  | e :: t => by
    show ':' ∉ natChars e.1 ++ symChars e.2 ++ printSites symChars t
    intro hm
    rcases List.mem_append.mp hm with hm1 | hm2
    · rcases List.mem_append.mp hm1 with ha | hb
      · exact absurd (natChars_all_digits e.1 ':' ha) (by decide)
      · exact hs e.2 hb
    · exact printSites_no_colon symChars hs t hm2

theorem printTagged_no_colon (tag : Char) (ht : ¬(':' = tag)) :
    ∀ l : List ℕ, ':' ∉ printTagged tag l
  | [] => List.not_mem_nil _
  | i :: t => by
    show ':' ∉ tag :: (natChars i ++ printTagged tag t)
    intro hm
    rcases List.mem_cons.mp hm with h1 | h2
    · exact ht h1
    · rcases List.mem_append.mp h2 with ha | hb
      · exact absurd (natChars_all_digits i ':' ha) (by decide)
      · exact printTagged_no_colon tag ht t hb

theorem printLadder_no_colon (cs ans : List ℕ) : ':' ∉ printLadder cs ans := by
  unfold printLadder
  intro hm
  rcases List.mem_append.mp hm with h | h
  · exact printTagged_no_colon 'c' (by decide) cs h
  · exact printTagged_no_colon 'a' (by decide) ans h

theorem parseMixed_printed (sp bo fe : List (List Char))
    (hsp : ∀ inner ∈ sp, ':' ∉ inner)
    (hbo : ∀ inner ∈ bo, ':' ∉ inner)
    (hfe : ∀ inner ∈ fe, ':' ∉ inner) :
    parseMixed (printMixed sp bo fe) = some (sp, bo, fe) := by
  unfold parseMixed printMixed
  have hBB : ∀ c, (((bo.map (printSlot 'B')).foldr (· ++ ·)
      ((fe.map (printSlot 'F')).foldr (· ++ ·) ([] : List Char))).head? = some c) →
      c = 'B' ∨ c = 'F' := by
    intro c hc
    rcases slotFold_head 'B' bo _ c hc with h | h
    · exact Or.inl h
    · rcases slotFold_head 'F' fe [] c h with h2 | h2
      · exact Or.inr h2
      · exact absurd h2 (by simp)
  have hf1 : sp.length < ((sp.map (printSlot 'S')).foldr (· ++ ·)
      ((bo.map (printSlot 'B')).foldr (· ++ ·)
        ((fe.map (printSlot 'F')).foldr (· ++ ·) ([] : List Char)))).length + 1 := by
    have := slotFold_length 'S' sp ((bo.map (printSlot 'B')).foldr (· ++ ·)
      ((fe.map (printSlot 'F')).foldr (· ++ ·) ([] : List Char)))
    omega
  have h1 := parseSlots_printed 'S' sp _ _ hf1 hsp
    (by intro c hc he; subst he; rcases hBB 'S' hc with h | h <;> exact absurd h (by decide))
  rw [h1]
  show (match parseSlots 'B' (((bo.map (printSlot 'B')).foldr (· ++ ·)
      ((fe.map (printSlot 'F')).foldr (· ++ ·) ([] : List Char))).length + 1)
      ((bo.map (printSlot 'B')).foldr (· ++ ·)
        ((fe.map (printSlot 'F')).foldr (· ++ ·) ([] : List Char))) with
    | none => none
    | some (b, rest2) =>
      match parseSlots 'F' (rest2.length + 1) rest2 with
      | none => none
      | some (f, rest3) => if rest3.isEmpty = true then some (sp, b, f) else none)
    = some (sp, bo, fe)
  have hf2 : bo.length < ((bo.map (printSlot 'B')).foldr (· ++ ·)
      ((fe.map (printSlot 'F')).foldr (· ++ ·) ([] : List Char))).length + 1 := by
    have := slotFold_length 'B' bo ((fe.map (printSlot 'F')).foldr (· ++ ·) ([] : List Char))
    omega
  have h2 := parseSlots_printed 'B' bo _ _ hf2 hbo
    (by intro c hc he; subst he
        rcases slotFold_head 'F' fe [] 'B' hc with h | h
        · exact absurd h (by decide)
        · exact absurd h (by simp))
  rw [h2]
  show (match parseSlots 'F' (((fe.map (printSlot 'F')).foldr (· ++ ·)
      ([] : List Char)).length + 1)
      ((fe.map (printSlot 'F')).foldr (· ++ ·) ([] : List Char)) with
    | none => none
    | some (f, rest3) => if rest3.isEmpty = true then some (sp, bo, f) else none)
    = some (sp, bo, fe)
  have hf3 : fe.length < ((fe.map (printSlot 'F')).foldr (· ++ ·) ([] : List Char)).length + 1 := by
    have := slotFold_length 'F' fe ([] : List Char)
    omega
  have h3 := parseSlots_printed 'F' fe _ ([] : List Char) hf3 hfe
    (by intro c hc; exact absurd hc (by simp))
  rw [h3]
  rfl

theorem mixed_fromStr_toStr (m : MixedProduct)
    (hsp : ∀ p ∈ m.spins, sitesSorted p = true)
    (hbo : ∀ b ∈ m.bosons, idxSorted b.creators = true ∧ idxSorted b.annihilators = true)
    (hfe : ∀ f ∈ m.fermions, idxSorted f.creators = true ∧ idxSorted f.annihilators = true) :
    MixedProduct.fromStr (MixedProduct.toStr m) = .ok m := by
  unfold MixedProduct.fromStr MixedProduct.toStr
  have hsd : ∀ l : List Char, (String.mk l).data = l := fun l => rfl
  rw [hsd]
  have hpm := parseMixed_printed (m.spins.map (printSites pauliChars))
    (m.bosons.map fun b => printLadder b.creators b.annihilators)
    (m.fermions.map fun f => printLadder f.creators f.annihilators)
    (by intro inner hin
        rw [List.mem_map] at hin
        obtain ⟨p, hp, rfl⟩ := hin
        exact printSites_no_colon pauliChars (by intro s; cases s <;> decide) p)
    (by intro inner hin
        rw [List.mem_map] at hin
        obtain ⟨b, hb, rfl⟩ := hin
        exact printLadder_no_colon _ _)
    (by intro inner hin
        rw [List.mem_map] at hin
        obtain ⟨f, hf, rfl⟩ := hin
        exact printLadder_no_colon _ _)
  rw [hpm]
  show (match mapSlots (fun l => PauliProduct.fromStr ⟨l⟩) (m.spins.map (printSites pauliChars)),
      mapSlots (fun l => BosonProduct.fromStr ⟨l⟩)
        (m.bosons.map fun b => printLadder b.creators b.annihilators),
      mapSlots (fun l => FermionProduct.fromStr ⟨l⟩)
        (m.fermions.map fun f => printLadder f.creators f.annihilators) with
    | .ok a, .ok b, .ok c => Except.ok (⟨a, b, c⟩ : MixedProduct)
    | _, _, _ => Except.error StruqtureError.ParseError) = Except.ok m
  rw [mapSlots_map _ _ m.spins (fun p hp => pauli_fromStr_toStr p (hsp p hp)),
    mapSlots_map _ _ m.bosons
      (fun b hb => boson_fromStr_toStr b (hbo b hb).1 (hbo b hb).2),
    mapSlots_map _ _ m.fermions
      (fun f hf => fermion_fromStr_toStr f (hfe f hf).1 (hfe f hf).2)]

theorem mixedDeco_fromStr_toStr (m : MixedDecoherenceProduct)
    (hsp : ∀ p ∈ m.spins, sitesSorted p = true)
    (hbo : ∀ b ∈ m.bosons, idxSorted b.creators = true ∧ idxSorted b.annihilators = true)
    (hfe : ∀ f ∈ m.fermions, idxSorted f.creators = true ∧ idxSorted f.annihilators = true) :
    MixedDecoherenceProduct.fromStr (MixedDecoherenceProduct.toStr m) = .ok m := by
  unfold MixedDecoherenceProduct.fromStr MixedDecoherenceProduct.toStr
  have hsd : ∀ l : List Char, (String.mk l).data = l := fun l => rfl
  rw [hsd]
  have hpm := parseMixed_printed (m.spins.map (printSites dsymChars))
    (m.bosons.map fun b => printLadder b.creators b.annihilators)
    (m.fermions.map fun f => printLadder f.creators f.annihilators)
    (by intro inner hin
        rw [List.mem_map] at hin
        obtain ⟨p, hp, rfl⟩ := hin
        exact printSites_no_colon dsymChars (by intro s; cases s <;> decide) p)
    (by intro inner hin
        rw [List.mem_map] at hin
        obtain ⟨b, hb, rfl⟩ := hin
        exact printLadder_no_colon _ _)
    (by intro inner hin
        rw [List.mem_map] at hin
        obtain ⟨f, hf, rfl⟩ := hin
        exact printLadder_no_colon _ _)
  rw [hpm]
  show (match mapSlots (fun l => DecoherenceProduct.fromStr ⟨l⟩) (m.spins.map (printSites dsymChars)),
      mapSlots (fun l => BosonProduct.fromStr ⟨l⟩)
        (m.bosons.map fun b => printLadder b.creators b.annihilators),
      mapSlots (fun l => FermionProduct.fromStr ⟨l⟩)
        (m.fermions.map fun f => printLadder f.creators f.annihilators) with
    | .ok a, .ok b, .ok c => Except.ok (⟨a, b, c⟩ : MixedDecoherenceProduct)
    | _, _, _ => Except.error StruqtureError.ParseError) = Except.ok m
  rw [mapSlots_map _ _ m.spins (fun p hp => deco_fromStr_toStr p (hsp p hp)),
    mapSlots_map _ _ m.bosons
      (fun b hb => boson_fromStr_toStr b (hbo b hb).1 (hbo b hb).2),
    mapSlots_map _ _ m.fermions
      (fun f hf => fermion_fromStr_toStr f (hfe f hf).1 (hfe f hf).2)]

theorem hermMixed_fromStr_toStr (h : HermitianMixedProduct)
    (hsp : ∀ p ∈ h.prod.spins, sitesSorted p = true)
    (hbo : ∀ b ∈ h.prod.bosons, idxSorted b.creators = true ∧ idxSorted b.annihilators = true)
    (hfe : ∀ f ∈ h.prod.fermions, idxSorted f.creators = true ∧ idxSorted f.annihilators = true) :
    HermitianMixedProduct.fromStr (HermitianMixedProduct.toStr h) = .ok h := by
  unfold HermitianMixedProduct.fromStr HermitianMixedProduct.toStr
  rw [mixed_fromStr_toStr h.prod hsp hbo hfe]

/-! ### Theorems: the jordan_wigner surface returns operator containers -/

theorem jwDSite_canon (i : ℕ) (s : DSym) : Canon fermLt (jwDSite i s) := by
  cases s with
  | X => exact jwSite_canon i Pauli.X
  | IY => exact mscale_canon fermKeyLaws (jwSite_canon i Pauli.Y) _
  | Z => exact jwSite_canon i Pauli.Z

theorem jwPMSite_canon (i : ℕ) (s : PMSym) : Canon fermLt (jwPMSite i s) := by
  cases s with
  | Plus => exact opMulOp_canon _ _
  | Minus => exact opMulOp_canon _ _
  | Z => exact jwSite_canon i Pauli.Z

theorem jwDecoherenceProduct_canon (p : DecoherenceProduct) :
    Canon fermLt (jwDecoherenceProduct p) := by
  unfold jwDecoherenceProduct
  exact foldl_opMul_canon (fun e => jwDSite e.1 e.2) p fermOne fermOne_canon

theorem jwPlusMinusProduct_canon (p : PlusMinusProduct) :
    Canon fermLt (jwPlusMinusProduct p) := by
  unfold jwPlusMinusProduct
  exact foldl_opMul_canon (fun e => jwPMSite e.1 e.2) p fermOne fermOne_canon

theorem liftVia_singleton {k1 k2 : Type} {lt : k2 -> k2 -> Bool} (hl : KeyLaws lt)
    [DecidableEq k2] (f : k1 -> List (k2 × CComplex)) (hf : ∀ p, Canon lt (f p)) (p : k1) :
    liftVia lt f [(p, (1 : CComplex))] = f p := by
  refine canon_ext hl (liftVia_canon hl f _) (hf p) ?_
  intro q
  rw [sget_liftVia hl f hf, entrySum_cons, entrySum_nil, one_mul, add_zero]

/-- Claim C9: `jordan_wigner()` on a single product returns a whole operator
container of the opposite family — for each spin-family product kind the
result is the fermionic operator container equal to the operator-level
transform of the corresponding one-term operator, for a fermionic product it
is the spin operator container, and for a Hermitian fermionic product it is
the spin Hamiltonian container holding the transform of representative plus
conjugate. -/
theorem claim_c9_jordan_wigner_kinds :
    (∀ p : PauliProduct, p.jordanWigner = spinToFermion [(p, 1)])
    ∧ (∀ p : DecoherenceProduct,
        p.jordanWigner = liftVia fermLt jwDecoherenceProduct [(p, 1)])
    ∧ (∀ p : PlusMinusProduct,
        p.jordanWigner = liftVia fermLt jwPlusMinusProduct [(p, 1)])
    ∧ (∀ t : FermionProduct, t.jordanWigner = fermionToSpin [(t, 1)])
    ∧ (∀ h : HermitianFermionProduct,
        (h.prod.hconj = h.prod → h.jordanWigner.toOp = fsFermionProduct h.prod)
        ∧ (h.prod.hconj ≠ h.prod →
          h.jordanWigner.toOp
            = mplus pauliLt (fsFermionProduct h.prod) (fsFermionProduct h.prod.hconj))) := by
  refine ⟨?_, ?_, ?_, ?_, ?_⟩
  · intro p
    exact (liftVia_singleton fermKeyLaws jwPauliProduct jwPauliProduct_canon p).symm
  · intro p
    exact (liftVia_singleton fermKeyLaws jwDecoherenceProduct jwDecoherenceProduct_canon p).symm
  · intro p
    exact (liftVia_singleton fermKeyLaws jwPlusMinusProduct jwPlusMinusProduct_canon p).symm
  · intro t
    exact (liftVia_singleton pauliKeyLaws fsFermionProduct fsFermionProduct_canon t).symm
  · intro h
    constructor
    · intro hsc
      show fermionToSpin (hermFermionOperatorOf h) = _
      unfold hermFermionOperatorOf
      rw [if_pos hsc]
      have hm : madd fermLt h.prod (dy 1 0 0) ([] : FermionSystem)
          = [(h.prod, dy 1 0 0)] := by
        rw [madd, if_neg (by decide : ¬(dy 1 0 0 = (0 : CComplex)))]
      rw [hm]
      exact liftVia_singleton pauliKeyLaws fsFermionProduct fsFermionProduct_canon h.prod
    · intro hsc
      show fermionToSpin (hermFermionOperatorOf h) = _
      unfold hermFermionOperatorOf
      rw [if_neg hsc]
      have hc1 : Canon fermLt (madd fermLt h.prod (dy 1 0 0) []) :=
        madd_canon fermKeyLaws (canon_nil fermLt) _ _
      have hc2 : Canon fermLt (madd fermLt h.prod.hconj (dy 1 0 0)
          (madd fermLt h.prod (dy 1 0 0) [])) :=
        madd_canon fermKeyLaws hc1 _ _
      refine canon_ext pauliKeyLaws (fermionToSpin_canon _)
        (mplus_canon pauliKeyLaws (fsFermionProduct_canon _)) ?_
      intro q
      rw [sget_mplus pauliKeyLaws (fsFermionProduct_canon _) (fsFermionProduct_canon _)]
      unfold fermionToSpin
      rw [sget_liftVia pauliKeyLaws _ fsFermionProduct_canon,
        entrySum_madd fermKeyLaws hc1, entrySum_madd fermKeyLaws (canon_nil fermLt),
        entrySum_nil]
      show 0 + dy 1 0 0 * sget (fsFermionProduct h.prod) q
          + dy 1 0 0 * sget (fsFermionProduct h.prod.hconj) q
        = sget (fsFermionProduct h.prod) q + sget (fsFermionProduct h.prod.hconj) q
      have hone : dy 1 0 0 = (1 : CComplex) := rfl
      rw [hone, one_mul, one_mul, zero_add]

/-- A closed check that `claim_c9_jordan_wigner_kinds` applies: the
Hermitian product with creation index 0 and annihilation index 1 is not
self-conjugate, and its transform is the combined container. -/
theorem claim_c9_jordan_wigner_kinds_witness :
    (HermitianFermionProduct.jordanWigner ⟨⟨[0], [1]⟩⟩).toOp
      = mplus pauliLt (fsFermionProduct ⟨[0], [1]⟩)
          (fsFermionProduct (FermionProduct.hconj ⟨[0], [1]⟩)) :=
  (claim_c9_jordan_wigner_kinds.2.2.2.2 ⟨⟨[0], [1]⟩⟩).2 (by decide)

/-! ### Theorems: the claims about Hermitian containers -/

theorem hconj_hconj (t : FermionProduct) : t.hconj.hconj = t := rfl

theorem conj_eq_zero {a : CComplex} (h : a.conj = 0) : a = 0 := by
  obtain ⟨r, i, d, p⟩ := a
  unfold CComplex.conj at h
  rw [show (0 : CComplex) = ⟨0, 0, 0, Or.inl rfl⟩ from rfl, CComplex.mk.injEq] at h
  rw [show (0 : CComplex) = ⟨0, 0, 0, Or.inl rfl⟩ from rfl, CComplex.mk.injEq]
  obtain ⟨h1, h2, h3⟩ := h
  exact ⟨h1, neg_eq_zero.mp h2, h3⟩

/-- Claim C4, as stated over every Hermitian container, is false: on a
container already holding coefficient 1 at the canonical representative of
P = (creation 0, annihilation 1), `add(P, 2+3i)` accumulates to 3+3i, so
`get(P†)` returns 3-3i, not 2-3i. -/
theorem claim_c4_counterexample :
    Canon fermLt [((⟨[0], [1]⟩ : FermionProduct), (1 : CComplex))]
    ∧ HermInv [((⟨[0], [1]⟩ : FermionProduct), (1 : CComplex))]
    ∧ FermionProduct.hconj ⟨[0], [1]⟩ ≠ (⟨[0], [1]⟩ : FermionProduct)
    ∧ hadd ⟨[0], [1]⟩ (dy 2 3 0) [((⟨[0], [1]⟩ : FermionProduct), (1 : CComplex))]
        = Except.ok [((⟨[0], [1]⟩ : FermionProduct), dy 3 3 0)]
    ∧ hget [((⟨[0], [1]⟩ : FermionProduct), dy 3 3 0)] (FermionProduct.hconj ⟨[0], [1]⟩)
        ≠ dy 2 (-3) 0 := by
  decide

/-- Claim C4 (amended: the canonical representative of P carries no
coefficient beforehand, `get(P) = 0`): for every Hermitian container and
every non-self-conjugate product P, after `add(P, 2+3i)` the query
`get(P†)` returns 2-3i — `get` looks up by the canonical representative and
conjugates when the query is the non-representative member. -/
theorem claim_c4_conjugate_get (m : FermionSystem) (P : FermionProduct)
    (hm : Canon fermLt m) (hP : P.hconj ≠ P) (h0 : hget m P = 0) :
    ∃ m', hadd P (dy 2 3 0) m = Except.ok m' ∧ hget m' P.hconj = dy 2 (-3) 0 := by
  by_cases hlt : fermLt P.hconj P = true
  · -- P is the non-representative member; the entry is stored at P† conjugated
    have hrep : hermCanonical P (dy 2 3 0) = (P.hconj, (dy 2 3 0).conj) := by
      unfold hermCanonical
      rw [if_pos hlt]
    have hguard : ¬(P.hconj.hconj = P.hconj ∧
        (sget m P.hconj + (dy 2 3 0).conj).im ≠ 0) := by
      rintro ⟨h1, -⟩
      rw [hconj_hconj] at h1
      exact hP h1.symm
    refine ⟨madd fermLt P.hconj ((dy 2 3 0).conj) m, ?_, ?_⟩
    · simp only [hadd, hrep]
      rw [if_neg hguard]
    · unfold hget
      rw [hconj_hconj, if_neg (by rw [fermKeyLaws.asymm hlt]; simp),
        sget_madd fermKeyLaws hm, if_pos rfl]
      have hs0 : sget m P.hconj = 0 := by
        unfold hget at h0
        rw [if_pos hlt] at h0
        exact conj_eq_zero h0
      rw [hs0]
      decide
  · -- P itself is the representative; the query is the non-representative one
    have hrep : hermCanonical P (dy 2 3 0) = (P, dy 2 3 0) := by
      unfold hermCanonical
      rw [if_neg (by simpa using hlt)]
    have hguard : ¬(P.hconj = P ∧ (sget m P + dy 2 3 0).im ≠ 0) := by
      rintro ⟨h1, -⟩
      exact hP h1
    refine ⟨madd fermLt P (dy 2 3 0) m, ?_, ?_⟩
    · simp only [hadd, hrep]
      rw [if_neg hguard]
    · unfold hget
      have hlt' : fermLt P P.hconj = true :=
        fermKeyLaws.lt_of_ne hP (by simpa using hlt)
      rw [hconj_hconj, if_pos hlt', sget_madd fermKeyLaws hm, if_pos rfl]
      have hs0 : sget m P = 0 := by
        unfold hget at h0
        rw [if_neg (by simpa using hlt)] at h0
        exact h0
      rw [hs0]
      decide

/-- A closed check that `claim_c4_conjugate_get` applies: the empty
Hermitian container and P = (creation 0, annihilation 1). -/
theorem claim_c4_conjugate_get_witness :
    ∃ m', hadd ⟨[0], [1]⟩ (dy 2 3 0) ([] : FermionSystem) = Except.ok m'
      ∧ hget m' (FermionProduct.hconj ⟨[0], [1]⟩) = dy 2 (-3) 0 :=
  claim_c4_conjugate_get [] ⟨[0], [1]⟩ (by decide) (by decide) (by decide)

/-- Claim C5: Hermitian-container writes keep every stored self-conjugate
product real: `add` and `set` preserve the invariant; an `add` or a `set`
whose canonical product is self-conjugate with a net coefficient of
non-zero imaginary part fails with NonHermitianCoefficient; a complex
coefficient on a non-self-conjugate product always succeeds, for `add` and
for `set` alike. -/
theorem claim_c5_hermitian_invariant :
    (∀ (m : FermionSystem) (t : FermionProduct) (c : CComplex) (m' : FermionSystem),
      Canon fermLt m → HermInv m → hadd t c m = Except.ok m' →
        HermInv m' ∧ Canon fermLt m')
    ∧ (∀ (m : FermionSystem) (t : FermionProduct) (c : CComplex) (m' : FermionSystem),
      Canon fermLt m → HermInv m → hset t c m = Except.ok m' →
        HermInv m' ∧ Canon fermLt m')
    ∧ (∀ (m : FermionSystem) (t : FermionProduct) (c : CComplex),
      (hermCanonical t c).1.hconj = (hermCanonical t c).1 →
      (sget m (hermCanonical t c).1 + (hermCanonical t c).2).im ≠ 0 →
      hadd t c m = Except.error StruqtureError.NonHermitianCoefficient)
    ∧ (∀ (m : FermionSystem) (t : FermionProduct) (c : CComplex),
      t.hconj ≠ t → ∃ m', hadd t c m = Except.ok m')
    ∧ (∀ (m : FermionSystem) (t : FermionProduct) (c : CComplex),
      (hermCanonical t c).1.hconj = (hermCanonical t c).1 →
      (hermCanonical t c).2.im ≠ 0 →
      hset t c m = Except.error StruqtureError.NonHermitianCoefficient)
    ∧ (∀ (m : FermionSystem) (t : FermionProduct) (c : CComplex),
      t.hconj ≠ t → ∃ m', hset t c m = Except.ok m') := by
  refine ⟨?_, ?_, ?_, ?_, ?_, ?_⟩
  · intro m t c m' hm hinv h
    simp only [hadd] at h
    by_cases hg : (hermCanonical t c).1.hconj = (hermCanonical t c).1 ∧
        (sget m (hermCanonical t c).1 + (hermCanonical t c).2).im ≠ 0
    · rw [if_pos hg] at h
      exact absurd h (by simp)
    · rw [if_neg hg] at h
      have hm' : m' = madd fermLt (hermCanonical t c).1 (hermCanonical t c).2 m :=
        (Except.ok.injEq _ _ ▸ h).symm
      subst hm'
      have hcan := madd_canon fermKeyLaws hm (hermCanonical t c).1 (hermCanonical t c).2
      refine ⟨?_, hcan⟩
      intro e he hsc
      rcases mem_madd fermKeyLaws he with hkey | hmem
      · have hv : e.2 = sget m (hermCanonical t c).1 + (hermCanonical t c).2 := by
          have h1 := sget_of_mem fermKeyLaws hcan he
          rw [hkey] at h1
          rw [← h1, sget_madd fermKeyLaws hm, if_pos rfl]
        have hrsc : (hermCanonical t c).1.hconj = (hermCanonical t c).1 := by
          rw [← hkey]
          exact hsc
        have him : (sget m (hermCanonical t c).1 + (hermCanonical t c).2).im = 0 := by
          by_contra hne
          exact hg ⟨hrsc, hne⟩
        rw [hv]
        exact him
      · exact hinv e hmem hsc
  · intro m t c m' hm hinv h
    simp only [hset] at h
    by_cases hg : (hermCanonical t c).1.hconj = (hermCanonical t c).1 ∧
        (hermCanonical t c).2.im ≠ 0
    · rw [if_pos hg] at h
      exact absurd h (by simp)
    · rw [if_neg hg] at h
      have hm' : m' = mset fermLt (hermCanonical t c).1 (hermCanonical t c).2 m :=
        (Except.ok.injEq _ _ ▸ h).symm
      subst hm'
      have hcan := mset_canon fermKeyLaws hm (hermCanonical t c).1 (hermCanonical t c).2
      refine ⟨?_, hcan⟩
      intro e he hsc
      rcases mem_mset fermKeyLaws he with hkey | hmem
      · have hv : e.2 = (hermCanonical t c).2 := by
          have h1 := sget_of_mem fermKeyLaws hcan he
          rw [hkey] at h1
          rw [← h1, sget_mset fermKeyLaws hm, if_pos rfl]
        have hrsc : (hermCanonical t c).1.hconj = (hermCanonical t c).1 := by
          rw [← hkey]
          exact hsc
        have him : (hermCanonical t c).2.im = 0 := by
          by_contra hne
          exact hg ⟨hrsc, hne⟩
        rw [hv]
        exact him
      · exact hinv e hmem hsc
  · intro m t c h1 h2
    simp only [hadd]
    rw [if_pos ⟨h1, h2⟩]
  · intro m t c ht
    simp only [hadd]
    have hguard : ¬((hermCanonical t c).1.hconj = (hermCanonical t c).1 ∧
        (sget m (hermCanonical t c).1 + (hermCanonical t c).2).im ≠ 0) := by
      rintro ⟨h1, -⟩
      unfold hermCanonical at h1
      by_cases hlt : fermLt t.hconj t = true
      · rw [if_pos hlt] at h1
        simp only [hconj_hconj] at h1
        exact ht h1.symm
      · rw [if_neg (by simpa using hlt)] at h1
        exact ht h1
    rw [if_neg hguard]
    exact ⟨_, rfl⟩
  · intro m t c h1 h2
    simp only [hset]
    rw [if_pos ⟨h1, h2⟩]
  · intro m t c ht
    simp only [hset]
    have hguard : ¬((hermCanonical t c).1.hconj = (hermCanonical t c).1 ∧
        (hermCanonical t c).2.im ≠ 0) := by
      rintro ⟨h1, -⟩
      unfold hermCanonical at h1
      by_cases hlt : fermLt t.hconj t = true
      · rw [if_pos hlt] at h1
        simp only [hconj_hconj] at h1
        exact ht h1.symm
      · rw [if_neg (by simpa using hlt)] at h1
        exact ht h1
    rw [if_neg hguard]
    exact ⟨_, rfl⟩

/-- A closed check that `claim_c5_hermitian_invariant` applies: adding a
complex coefficient on a non-self-conjugate product to the empty container
preserves the invariant, and a self-conjugate set with non-zero imaginary
part fails. -/
theorem claim_c5_hermitian_invariant_witness :
    (HermInv [((⟨[0], [1]⟩ : FermionProduct), dy 2 3 0)]
      ∧ Canon fermLt [((⟨[0], [1]⟩ : FermionProduct), dy 2 3 0)])
    ∧ hset ⟨[0], [0]⟩ (dy 2 3 0) ([] : FermionSystem)
      = Except.error StruqtureError.NonHermitianCoefficient :=
  ⟨claim_c5_hermitian_invariant.1 [] ⟨[0], [1]⟩ (dy 2 3 0)
    [((⟨[0], [1]⟩ : FermionProduct), dy 2 3 0)] (by decide) (by decide) (by decide),
   claim_c5_hermitian_invariant.2.2.2.2.1 [] ⟨[0], [0]⟩ (dy 2 3 0)
    (by decide) (by decide)⟩

/-! ### Theorems: ladder-product construction (duplicate indices) -/

theorem hasAdjacentDup_false_of_pairwise :
    ∀ l : List ℕ, List.Pairwise (fun a b => a < b) l → hasAdjacentDup l = false
  | [], _ => rfl
  | [_], _ => rfl
  | a :: b :: t, h => by
    have hab : a < b := (List.pairwise_cons.mp h).1 b (List.mem_cons_self b t)
    simp only [hasAdjacentDup]
    rw [if_neg (Nat.ne_of_lt hab)]
    exact hasAdjacentDup_false_of_pairwise (b :: t) h.of_cons

theorem pairwise_of_sorted_noAdjDup :
    ∀ l : List ℕ, List.Pairwise (fun a b => a ≤ b) l → hasAdjacentDup l = false →
      List.Pairwise (fun a b => a < b) l
  | [], _, _ => List.Pairwise.nil
  | [a], _, _ => by simp
  | a :: b :: t, hs, hd => by
    simp only [hasAdjacentDup] at hd
    by_cases hab : a = b
    · rw [if_pos hab] at hd
      exact absurd hd (by simp)
    · rw [if_neg hab] at hd
      have ih := pairwise_of_sorted_noAdjDup (b :: t) hs.of_cons hd
      refine List.pairwise_cons.mpr ⟨?_, ih⟩
      intro c hc
      have hac : a ≤ c := (List.pairwise_cons.mp hs).1 c hc
      rcases List.mem_cons.mp hc with rfl | hct
      · exact lt_of_le_of_ne hac hab
      · have hbc : b < c := (List.pairwise_cons.mp ih).1 c hct
        have hab2 : a ≤ b := (List.pairwise_cons.mp hs).1 b (List.mem_cons_self b t)
        omega

theorem sortIndices_sorted (l : List ℕ) :
    List.Pairwise (fun a b => a ≤ b) (sortIndices l) :=
  List.sorted_insertionSort (fun a b => a ≤ b) l

theorem hasAdjacentDup_sort_false_iff (l : List ℕ) :
    hasAdjacentDup (sortIndices l) = false ↔ l.Nodup := by
  constructor
  · intro h
    have hp := pairwise_of_sorted_noAdjDup _ (sortIndices_sorted l) h
    have hn : (sortIndices l).Nodup := hp.imp fun h => Nat.ne_of_lt h
    exact ((List.perm_insertionSort (fun a b => a ≤ b) l).nodup_iff).mp hn
  · intro h
    have hn : (sortIndices l).Nodup :=
      ((List.perm_insertionSort (fun a b => a ≤ b) l).nodup_iff).mpr h
    have hp : (sortIndices l).Pairwise (fun a b => a < b) :=
      ((sortIndices_sorted l).and hn).imp fun h => lt_of_le_of_ne h.1 h.2
    exact hasAdjacentDup_false_of_pairwise _ hp

/-- Claim C6: ladder-product construction from two index lists fails with
DuplicateIndex exactly when an index repeats within one of the two lists
(for both the fermionic and the bosonic family); duplicate-free lists —
including an index shared between the two lists — construct successfully,
sorted ascending. -/
theorem claim_c6_duplicate_index :
    (∀ cs ans : List ℕ, ¬cs.Nodup ∨ ¬ans.Nodup →
      FermionProduct.new cs ans = Except.error StruqtureError.DuplicateIndex
      ∧ BosonProduct.new cs ans = Except.error StruqtureError.DuplicateIndex)
    ∧ (∀ cs ans : List ℕ, cs.Nodup → ans.Nodup →
      FermionProduct.new cs ans = Except.ok ⟨sortIndices cs, sortIndices ans⟩
      ∧ BosonProduct.new cs ans = Except.ok ⟨sortIndices cs, sortIndices ans⟩) := by
  constructor
  · intro cs ans h
    have hor : (hasAdjacentDup (sortIndices cs) || hasAdjacentDup (sortIndices ans)) = true := by
      rcases h with h | h
      · have : hasAdjacentDup (sortIndices cs) = true := by
          cases hd : hasAdjacentDup (sortIndices cs)
          · exact absurd ((hasAdjacentDup_sort_false_iff cs).mp hd) h
          · rfl
        rw [this]
        rfl
      · have : hasAdjacentDup (sortIndices ans) = true := by
          cases hd : hasAdjacentDup (sortIndices ans)
          · exact absurd ((hasAdjacentDup_sort_false_iff ans).mp hd) h
          · rfl
        rw [this]
        exact Bool.or_true _
    constructor
    · simp only [FermionProduct.new, ladderNew]
      rw [if_pos hor]
      rfl
    · simp only [BosonProduct.new, ladderNew]
      rw [if_pos hor]
      rfl
  · intro cs ans h1 h2
    have hor : ¬((hasAdjacentDup (sortIndices cs) || hasAdjacentDup (sortIndices ans)) = true) := by
      rw [(hasAdjacentDup_sort_false_iff cs).mpr h1, (hasAdjacentDup_sort_false_iff ans).mpr h2]
      simp
    constructor
    · simp only [FermionProduct.new, ladderNew]
      rw [if_neg hor]
      rfl
    · simp only [BosonProduct.new, ladderNew]
      rw [if_neg hor]
      rfl

/-- A closed check that `claim_c6_duplicate_index` applies: a repeated
creation index fails, and the shared index pair `([0], [0])` succeeds. -/
theorem claim_c6_duplicate_index_witness :
    (FermionProduct.new [1, 1] [0] = Except.error StruqtureError.DuplicateIndex
      ∧ BosonProduct.new [1, 1] [0] = Except.error StruqtureError.DuplicateIndex)
    ∧ (FermionProduct.new [0] [0] = Except.ok ⟨[0], [0]⟩
      ∧ BosonProduct.new [0] [0] = Except.ok ⟨[0], [0]⟩) :=
  ⟨claim_c6_duplicate_index.1 [1, 1] [0] (Or.inl (by decide)),
   claim_c6_duplicate_index.2 [0] [0] (by decide) (by decide)⟩

/-! ### Theorems: the zero-cancellation claim -/

/-- Claim C8, as stated over every container, is false: on a container
already holding coefficient 1 at the empty product, `add(P, 1)` followed by
`add(P, -1)` restores the old entry, so `get(P)` is 1 and P still appears
in iteration. -/
theorem claim_c8_counterexample :
    Canon fermLt [((⟨[], []⟩ : FermionProduct), (1 : CComplex))]
    ∧ sget (madd fermLt (⟨[], []⟩ : FermionProduct) (-(1 : CComplex))
        (madd fermLt (⟨[], []⟩ : FermionProduct) (1 : CComplex)
          [((⟨[], []⟩ : FermionProduct), (1 : CComplex))])) ⟨[], []⟩ ≠ 0
    ∧ (⟨[], []⟩ : FermionProduct) ∈ keysOf (madd fermLt (⟨[], []⟩ : FermionProduct)
        (-(1 : CComplex)) (madd fermLt (⟨[], []⟩ : FermionProduct) (1 : CComplex)
          [((⟨[], []⟩ : FermionProduct), (1 : CComplex))])) := by
  decide

/-- Claim C8 (amended: P absent from the container beforehand,
`get(P) = 0`): for every container, product P and coefficient c, `add(P, c)`
followed by `add(P, -c)` removes P entirely — `get(P)` returns zero, P does
not appear in iteration — and zero-coefficient entries are never persisted
by any operation: every entry produced by `add`, `set`, container sum or
scalar multiplication on canonical containers carries a non-zero
coefficient. -/
theorem claim_c8_add_cancel {κ : Type} (lt : κ → κ → Bool) (hl : KeyLaws lt)
    [DecidableEq κ] (m : List (κ × CComplex)) (P : κ) (c : CComplex)
    (hm : Canon lt m) (h0 : sget m P = 0) :
    sget (madd lt P (-c) (madd lt P c m)) P = 0
    ∧ P ∉ keysOf (madd lt P (-c) (madd lt P c m))
    ∧ Canon lt (madd lt P (-c) (madd lt P c m))
    ∧ (∀ (m' : List (κ × CComplex)), Canon lt m' → ∀ (Q : κ) (d : CComplex),
        ∀ e ∈ madd lt Q d m', e.2 ≠ 0)
    ∧ (∀ (m' : List (κ × CComplex)), Canon lt m' → ∀ (Q : κ) (d : CComplex),
        ∀ e ∈ mset lt Q d m', e.2 ≠ 0)
    ∧ (∀ (m₁ m₂ : List (κ × CComplex)), Canon lt m₂ →
        ∀ e ∈ mplus lt m₁ m₂, e.2 ≠ 0)
    ∧ (∀ (d : CComplex) (m' : List (κ × CComplex)), Canon lt m' →
        ∀ e ∈ mscale d m', e.2 ≠ 0) := by
  have hc1 := madd_canon hl hm P c
  have hc2 := madd_canon hl hc1 P (-c)
  have hs : sget (madd lt P (-c) (madd lt P c m)) P = 0 := by
    rw [sget_madd hl hc1, sget_madd hl hm, h0, if_pos rfl, if_pos rfl]
    ring
  refine ⟨hs, ?_, hc2, ?_, ?_, ?_, ?_⟩
  · intro hmem
    exact (sget_ne_zero_iff_mem hl hc2 P).mpr hmem hs
  · intro m' hm' Q d e he
    exact (madd_canon hl hm' Q d).2 e he
  · intro m' hm' Q d e he
    exact (mset_canon hl hm' Q d).2 e he
  · intro m₁ m₂ hm₂ e he
    exact (mplus_canon hl hm₂).2 e he
  · intro d m' hm' e he
    exact (mscale_canon hl hm' d).2 e he

/-- A closed check that `claim_c8_add_cancel` applies: the empty fermionic
container, a concrete product and a concrete complex coefficient. -/
theorem claim_c8_add_cancel_witness :
    sget (madd fermLt (⟨[0], [1]⟩ : FermionProduct) (-(dy 1 2 1))
        (madd fermLt (⟨[0], [1]⟩ : FermionProduct) (dy 1 2 1) [])) ⟨[0], [1]⟩ = 0
    ∧ (⟨[0], [1]⟩ : FermionProduct) ∉ keysOf (madd fermLt (⟨[0], [1]⟩ : FermionProduct)
        (-(dy 1 2 1)) (madd fermLt (⟨[0], [1]⟩ : FermionProduct) (dy 1 2 1) []))
    ∧ Canon fermLt (madd fermLt (⟨[0], [1]⟩ : FermionProduct) (-(dy 1 2 1))
        (madd fermLt (⟨[0], [1]⟩ : FermionProduct) (dy 1 2 1) []))
    ∧ (∀ (m' : List (FermionProduct × CComplex)), Canon fermLt m' →
        ∀ (Q : FermionProduct) (d : CComplex), ∀ e ∈ madd fermLt Q d m', e.2 ≠ 0)
    ∧ (∀ (m' : List (FermionProduct × CComplex)), Canon fermLt m' →
        ∀ (Q : FermionProduct) (d : CComplex), ∀ e ∈ mset fermLt Q d m', e.2 ≠ 0)
    ∧ (∀ (m₁ m₂ : List (FermionProduct × CComplex)), Canon fermLt m₂ →
        ∀ e ∈ mplus fermLt m₁ m₂, e.2 ≠ 0)
    ∧ (∀ (d : CComplex) (m' : List (FermionProduct × CComplex)), Canon fermLt m' →
        ∀ e ∈ mscale d m', e.2 ≠ 0) :=
  claim_c8_add_cancel fermLt fermKeyLaws [] ⟨[0], [1]⟩ (dy 1 2 1) (by decide) (by decide)


/-- Claim C7: for every valid (canonically formed) product of any family —
Pauli, decoherence, plus/minus, fermionic, bosonic, mixed, mixed
decoherence, and the Hermitian fermionic and mixed variants — parsing the
canonical printed form reproduces a structurally equal value:
`from_string (to_string P) = P`. -/
theorem claim_c7_string_round_trip :
    (∀ p : PauliProduct, sitesSorted p = true →
      PauliProduct.fromStr (PauliProduct.toStr p) = .ok p)
    ∧ (∀ p : DecoherenceProduct, sitesSorted p = true →
      DecoherenceProduct.fromStr (DecoherenceProduct.toStr p) = .ok p)
    ∧ (∀ p : PlusMinusProduct, sitesSorted p = true →
      PlusMinusProduct.fromStr (PlusMinusProduct.toStr p) = .ok p)
    ∧ (∀ t : FermionProduct, idxSorted t.creators = true →
      idxSorted t.annihilators = true →
      FermionProduct.fromStr (FermionProduct.toStr t) = .ok t)
    ∧ (∀ t : BosonProduct, idxSorted t.creators = true →
      idxSorted t.annihilators = true →
      BosonProduct.fromStr (BosonProduct.toStr t) = .ok t)
    ∧ (∀ m : MixedProduct, (∀ p ∈ m.spins, sitesSorted p = true) →
      (∀ b ∈ m.bosons, idxSorted b.creators = true ∧ idxSorted b.annihilators = true) →
      (∀ f ∈ m.fermions, idxSorted f.creators = true ∧ idxSorted f.annihilators = true) →
      MixedProduct.fromStr (MixedProduct.toStr m) = .ok m)
    ∧ (∀ m : MixedDecoherenceProduct, (∀ p ∈ m.spins, sitesSorted p = true) →
      (∀ b ∈ m.bosons, idxSorted b.creators = true ∧ idxSorted b.annihilators = true) →
      (∀ f ∈ m.fermions, idxSorted f.creators = true ∧ idxSorted f.annihilators = true) →
      MixedDecoherenceProduct.fromStr (MixedDecoherenceProduct.toStr m) = .ok m)
    ∧ (∀ h : HermitianFermionProduct, idxSorted h.prod.creators = true →
      idxSorted h.prod.annihilators = true → fermLt h.prod.hconj h.prod = false →
      HermitianFermionProduct.fromStr (HermitianFermionProduct.toStr h) = .ok h)
    ∧ (∀ h : HermitianMixedProduct, (∀ p ∈ h.prod.spins, sitesSorted p = true) →
      (∀ b ∈ h.prod.bosons, idxSorted b.creators = true ∧ idxSorted b.annihilators = true) →
      (∀ f ∈ h.prod.fermions, idxSorted f.creators = true ∧ idxSorted f.annihilators = true) →
      HermitianMixedProduct.fromStr (HermitianMixedProduct.toStr h) = .ok h) :=
  ⟨pauli_fromStr_toStr, deco_fromStr_toStr, pm_fromStr_toStr, fermion_fromStr_toStr,
   boson_fromStr_toStr, mixed_fromStr_toStr, mixedDeco_fromStr_toStr,
   hermFermion_fromStr_toStr, hermMixed_fromStr_toStr⟩

/-- A closed check that `claim_c7_string_round_trip` applies, one concrete
valid product per family (the mixed ones include an empty spin slot and a
shared ladder index). -/
theorem claim_c7_string_round_trip_witness :
    PauliProduct.fromStr (PauliProduct.toStr [(0, Pauli.X), (12, Pauli.Y)])
      = .ok [(0, Pauli.X), (12, Pauli.Y)]
    ∧ DecoherenceProduct.fromStr (DecoherenceProduct.toStr [(0, DSym.X), (3, DSym.IY)])
      = .ok [(0, DSym.X), (3, DSym.IY)]
    ∧ PlusMinusProduct.fromStr (PlusMinusProduct.toStr [(2, PMSym.Plus), (5, PMSym.Minus)])
      = .ok [(2, PMSym.Plus), (5, PMSym.Minus)]
    ∧ FermionProduct.fromStr (FermionProduct.toStr ⟨[0, 2], [1]⟩) = .ok ⟨[0, 2], [1]⟩
    ∧ BosonProduct.fromStr (BosonProduct.toStr ⟨[0], [0]⟩) = .ok ⟨[0], [0]⟩
    ∧ MixedProduct.fromStr (MixedProduct.toStr
        ⟨[[(1, Pauli.X)], []], [⟨[0], [0]⟩], [⟨[0], [1]⟩]⟩)
      = .ok ⟨[[(1, Pauli.X)], []], [⟨[0], [0]⟩], [⟨[0], [1]⟩]⟩
    ∧ MixedDecoherenceProduct.fromStr (MixedDecoherenceProduct.toStr
        ⟨[[(0, DSym.Z)]], [⟨[], []⟩], [⟨[1], [2]⟩]⟩)
      = .ok ⟨[[(0, DSym.Z)]], [⟨[], []⟩], [⟨[1], [2]⟩]⟩
    ∧ HermitianFermionProduct.fromStr (HermitianFermionProduct.toStr ⟨⟨[0], [1]⟩⟩)
      = .ok ⟨⟨[0], [1]⟩⟩
    ∧ HermitianMixedProduct.fromStr (HermitianMixedProduct.toStr
        ⟨⟨[[(1, Pauli.X)], []], [⟨[0], [0]⟩], [⟨[0], [1]⟩]⟩⟩)
      = .ok ⟨⟨[[(1, Pauli.X)], []], [⟨[0], [0]⟩], [⟨[0], [1]⟩]⟩⟩ :=
  ⟨claim_c7_string_round_trip.1 _ (by decide),
   claim_c7_string_round_trip.2.1 _ (by decide),
   claim_c7_string_round_trip.2.2.1 _ (by decide),
   claim_c7_string_round_trip.2.2.2.1 _ (by decide) (by decide),
   claim_c7_string_round_trip.2.2.2.2.1 _ (by decide) (by decide),
   claim_c7_string_round_trip.2.2.2.2.2.1 _ (by decide) (by decide) (by decide),
   claim_c7_string_round_trip.2.2.2.2.2.2.1 _ (by decide) (by decide) (by decide),
   claim_c7_string_round_trip.2.2.2.2.2.2.2.1 _ (by decide) (by decide) (by decide),
   claim_c7_string_round_trip.2.2.2.2.2.2.2.2 _ (by decide) (by decide) (by decide)⟩

/-- Resolving the canonical string form of a valid decoherence product gives
back the product itself. -/
theorem resolveDP_str (p : DecoherenceProduct) (hs : sitesSorted p = true) :
    resolveDP (DPInput.str (DecoherenceProduct.toStr p)) = .ok p :=
  deco_fromStr_toStr p hs

/-- Claim C10: the Lindblad noise accessors `set`, `get` and
`add_operator_product` accept key pairs whose components are each either a
product object or its canonical string form: a string component is parsed
into the equal product, so the mixed-form set writes the same entry as the
object-form set, the mixed-form add accumulates the same entry, and a get
with a mixed-form pair retrieves the coefficient stored via set with the
same mixed-form pair. -/
theorem claim_c10_mixed_form_keys (l r : DecoherenceProduct)
    (hsl : sitesSorted l = true) (hsr : sitesSorted r = true)
    (c : CComplex) (m : SpinLindbladNoiseOperator) (hm : Canon dpPairLt m) :
    noiseSet (DPInput.prod l, DPInput.str (DecoherenceProduct.toStr r)) c m
      = .ok (mset dpPairLt (l, r) c m)
    ∧ noiseAdd (DPInput.str (DecoherenceProduct.toStr l), DPInput.prod r) c m
      = .ok (madd dpPairLt (l, r) c m)
    ∧ noiseGet (DPInput.prod l, DPInput.str (DecoherenceProduct.toStr r))
        (mset dpPairLt (l, r) c m) = .ok c := by
  have hr := resolveDP_str r hsr
  have hl' := resolveDP_str l hsl
  refine ⟨?_, ?_, ?_⟩
  · unfold noiseSet
    show (match resolveDP (DPInput.prod l),
        resolveDP (DPInput.str (DecoherenceProduct.toStr r)) with
      | .ok a, .ok b => Except.ok (mset dpPairLt (a, b) c m)
      | .error e, _ => Except.error e
      | _, .error e => Except.error e) = Except.ok (mset dpPairLt (l, r) c m)
    rw [hr]
    rfl
  · unfold noiseAdd
    show (match resolveDP (DPInput.str (DecoherenceProduct.toStr l)),
        resolveDP (DPInput.prod r) with
      | .ok a, .ok b => Except.ok (madd dpPairLt (a, b) c m)
      | .error e, _ => Except.error e
      | _, .error e => Except.error e) = Except.ok (madd dpPairLt (l, r) c m)
    rw [hl']
    rfl
  · unfold noiseGet
    show (match resolveDP (DPInput.prod l),
        resolveDP (DPInput.str (DecoherenceProduct.toStr r)) with
      | .ok a, .ok b => Except.ok (sget (mset dpPairLt (l, r) c m) (a, b))
      | .error e, _ => Except.error e
      | _, .error e => Except.error e) = Except.ok c
    rw [hr]
    show Except.ok (sget (mset dpPairLt (l, r) c m) (l, r)) = Except.ok c
    rw [sget_mset dpPairKeyLaws hm (l, r) (l, r) c, if_pos rfl]

/-- A closed check that `claim_c10_mixed_form_keys` applies: two concrete
decoherence products, a complex coefficient and the empty noise container. -/
theorem claim_c10_mixed_form_keys_witness :
    noiseSet (DPInput.prod [(0, DSym.X)],
        DPInput.str (DecoherenceProduct.toStr [(1, DSym.IY)])) (dy 2 1 0) []
      = .ok (mset dpPairLt ([(0, DSym.X)], [(1, DSym.IY)]) (dy 2 1 0) [])
    ∧ noiseAdd (DPInput.str (DecoherenceProduct.toStr [(0, DSym.X)]),
        DPInput.prod [(1, DSym.IY)]) (dy 2 1 0) []
      = .ok (madd dpPairLt ([(0, DSym.X)], [(1, DSym.IY)]) (dy 2 1 0) [])
    ∧ noiseGet (DPInput.prod [(0, DSym.X)],
        DPInput.str (DecoherenceProduct.toStr [(1, DSym.IY)]))
        (mset dpPairLt ([(0, DSym.X)], [(1, DSym.IY)]) (dy 2 1 0) []) = .ok (dy 2 1 0) :=
  claim_c10_mixed_form_keys [(0, DSym.X)] [(1, DSym.IY)] (by decide) (by decide)
    (dy 2 1 0) [] (by decide)

end Struqture
